import Mathlib

/-!
Verification of the two automation scripts in this repository:

* `.github/scripts/send_key.py` — decodes a base64 email address from a
  pull-request body marker `<!--EMAIL:<base64>-->`, provisions an API key,
  emails it, and posts a confirmation comment.
* `convert_tool_error.py` — a regex-based one-off migration rewriting
  `ToolError` usages to `ErrorData` usages in Rust sources.

Strings are modelled as `List Char`.  Each Python `re.sub`/`re.search`
pattern of the scripts is hand-compiled into a deterministic scanner that
reproduces the leftmost-match/backtracking semantics of the Python `re`
module for that concrete pattern; the scanners were cross-checked against
CPython's `re` on large random input families.
-/

namespace Goose

set_option maxRecDepth 100000

/-! ### Generic list/string helpers -/

/-- `dropLit lit s` returns `some rest` when `s = lit ++ rest`, else `none`
(models matching a literal piece of a regex at the current position). -/
def dropLit : List Char → List Char → Option (List Char)
  | [], s => some s
  | _ :: _, [] => none
  | l :: ls, c :: cs => if l = c then dropLit ls cs else none

theorem dropLit_eq_some {lit s rest : List Char} :
    dropLit lit s = some rest → s = lit ++ rest := by
  induction lit generalizing s with
  | nil => intro h; simp [dropLit] at h; simp [h]
  | cons l ls ih =>
    intro h
    cases s with
    | nil => simp [dropLit] at h
    | cons c cs =>
      simp only [dropLit] at h
      by_cases hc : l = c
      · rw [if_pos hc] at h
        subst hc
        simpa using ih h
      · rw [if_neg hc] at h
        exact absurd h (by simp)

theorem dropLit_append (lit rest : List Char) :
    dropLit lit (lit ++ rest) = some rest := by
  induction lit with
  | nil => rfl
  | cons l ls ih => simp [dropLit, ih]

/-- Number of leading characters of `s` satisfying `p`. -/
def takeWhileLen (p : Char → Bool) (s : List Char) : Nat :=
  (s.takeWhile p).length

/-- Python `str.split(sep)` for a single separator character:
splits on every occurrence, keeping empty pieces. -/
def splitOnChar (sep : Char) : List Char → List (List Char)
  | [] => [[]]
  | c :: cs =>
    let r := splitOnChar sep cs
    if c = sep then [] :: r
    else match r with
      | [] => [[c]]
      | piece :: rest => (c :: piece) :: rest

/-- Python whitespace (`\s` over the ASCII range; the repository's sources
are ASCII so the Unicode extras of `str.strip`/`\s` never arise). -/
def pyWs (c : Char) : Bool :=
  c = ' ' || c = '\t' || c = '\n' || c = '\r' || c = '\x0b' || c = '\x0c'

/-- Python `str.strip()`: remove leading and trailing whitespace. -/
def pyStrip (s : List Char) : List Char :=
  ((s.dropWhile pyWs).reverse.dropWhile pyWs).reverse

/-- `", ".join imports` (`sep.join pieces` for a fixed separator). -/
def joinSep (sep : List Char) : List (List Char) → List Char
  | [] => []
  | [x] => x
  | x :: y :: rest => x ++ sep ++ joinSep sep (y :: rest)

/-- Python substring containment `needle in hay` (`bool` valued). -/
def containsSub (needle hay : List Char) : Bool :=
  match hay with
  | [] => needle.isEmpty
  | _ :: cs => needle.isPrefixOf hay || containsSub needle cs

theorem containsSub_iff_infix {needle hay : List Char} :
    containsSub needle hay = true ↔ needle <:+: hay := by
  induction hay with
  | nil => simp [containsSub, List.isEmpty_iff]
  | cons c cs ih =>
    simp only [containsSub, Bool.or_eq_true, ih, List.isPrefixOf_iff_prefix]
    constructor
    · rintro (h | h)
      · exact h.isInfix
      · exact List.infix_cons h
    · intro h
      rcases h with ⟨pre, post, hs⟩
      cases pre with
      | nil => left; exact ⟨post, by simpa using hs⟩
      | cons a as =>
        right
        exact ⟨as, post, by simpa using congrArg List.tail hs⟩

/-! ### `send_key.py` — email marker extraction (step 2 of the script)

The script runs `re.search(r"<!--EMAIL:([A-Za-z0-9+/=]+)-->", pr_body)`.
The character class excludes `-`, so at a given start position the greedy
`+` admits no useful backtracking: the regex matches there exactly when the
maximal run of class characters after `<!--EMAIL:` is nonempty and is
immediately followed by `-->`.  `re.search` tries successive start
positions left to right. -/

/-- The base64 alphabet of the marker's character class `[A-Za-z0-9+/=]`. -/
def isB64char (c : Char) : Bool :=
  ('A' ≤ c && c ≤ 'Z') || ('a' ≤ c && c ≤ 'z') || ('0' ≤ c && c ≤ '9') ||
    c = '+' || c = '/' || c = '='

def markerOpen : List Char := "<!--EMAIL:".toList
def markerClose : List Char := "-->".toList

/-- Attempt the marker regex at the head of `s`; returns the capture group. -/
def tryMarker (s : List Char) : Option (List Char) :=
  match dropLit markerOpen s with
  | none => none
  | some r =>
    let run := r.takeWhile isB64char
    if run = [] then none
    else
      match dropLit markerClose (r.drop run.length) with
      | none => none
      | some _ => some run

/-- `re.search` for the marker pattern: first position where it matches. -/
def searchMarker : List Char → Option (List Char)
  | [] => none
  | c :: cs =>
    match tryMarker (c :: cs) with
    | some run => some run
    | none => searchMarker cs

/-! ### `send_key.py` — base64 and UTF-8 decoding

`base64.b64decode(...).decode("utf-8")`.  The decoders below implement
standard strict base64 (length a multiple of four, `=` only as final
padding) and standard UTF-8; on such well-formed payloads they agree with
the CPython library calls made by the script.  Decoded bytes / code points
are represented as `Nat`s. -/

def b64val (c : Char) : Option Nat :=
  if 'A' ≤ c ∧ c ≤ 'Z' then some (c.toNat - 'A'.toNat)
  else if 'a' ≤ c ∧ c ≤ 'z' then some (c.toNat - 'a'.toNat + 26)
  else if '0' ≤ c ∧ c ≤ '9' then some (c.toNat - '0'.toNat + 52)
  else if c = '+' then some 62
  else if c = '/' then some 63
  else none

def b64decode : List Char → Option (List Nat)
  | [] => some []
  | a :: b :: c :: d :: rest => do
    let va ← b64val a
    let vb ← b64val b
    if c = '=' ∧ d = '=' ∧ rest = [] then
      some [va * 4 + vb / 16]
    else do
      let vc ← b64val c
      if d = '=' ∧ rest = [] then
        some [va * 4 + vb / 16, (vb % 16) * 16 + vc / 4]
      else do
        let vd ← b64val d
        let tail ← b64decode rest
        some ([va * 4 + vb / 16, (vb % 16) * 16 + vc / 4, (vc % 4) * 64 + vd] ++ tail)
  | _ => none

def utf8cont (b : Nat) : Bool := 0x80 ≤ b && b < 0xC0

def utf8decode : List Nat → Option (List Nat)
  | [] => some []
  | b :: rest =>
    if b < 0x80 then
      (utf8decode rest).map (b :: ·)
    else if 0xC2 ≤ b ∧ b < 0xE0 then
      match rest with
      | c :: rest2 =>
        if utf8cont c then (utf8decode rest2).map (((b - 0xC0) * 64 + (c - 0x80)) :: ·)
        else none
      | [] => none
    else if 0xE0 ≤ b ∧ b < 0xF0 then
      match rest with
      | c :: d :: rest2 =>
        if utf8cont c ∧ utf8cont d then
          let cp := (b - 0xE0) * 4096 + (c - 0x80) * 64 + (d - 0x80)
          if 0x800 ≤ cp ∧ ¬ (0xD800 ≤ cp ∧ cp < 0xE000) then
            (utf8decode rest2).map (cp :: ·)
          else none
        else none
      | _ => none
    else if 0xF0 ≤ b ∧ b < 0xF5 then
      match rest with
      | c :: d :: e :: rest2 =>
        if utf8cont c ∧ utf8cont d ∧ utf8cont e then
          let cp := (b - 0xF0) * 262144 + (c - 0x80) * 4096 + (d - 0x80) * 64 + (e - 0x80)
          if 0x10000 ≤ cp ∧ cp < 0x110000 then
            (utf8decode rest2).map (cp :: ·)
          else none
        else none
      | _ => none
    else none

/-- `base64.b64decode(email_b64).decode("utf-8")` on the captured group. -/
def decodeEmail (p : List Char) : Option (List Nat) :=
  (b64decode p).bind utf8decode

/-- The email value the script extracts from a PR body (`none` when the
marker is absent or decoding raises). -/
def script_email (body : List Char) : Option (List Nat) :=
  (searchMarker body).bind decodeEmail

/-! ### `send_key.py` — control flow after the PR body has been fetched

The externally visible calls and the exit status, as a function of the PR
body and of oracles telling whether each external call succeeds.  An HTTP
error (`raise_for_status`) or a decoding error is an uncaught exception:
the process aborts with a nonzero status.  The SendGrid send is wrapped in
`try/except`, so its failure does not change the control flow. -/

inductive ScriptStep where
  | provision : ScriptStep
  | email : ScriptStep
  | comment : ScriptStep
deriving DecidableEq, Repr

def send_key_run (body : List Char) (provisionOk emailOk commentOk : Bool) :
    List ScriptStep × Nat :=
  match searchMarker body with
  | none => ([], 0)
  | some p =>
    match decodeEmail p with
    | none => ([], 1)
    | some _ =>
      if provisionOk = false then ([ScriptStep.provision], 1)
      else
        -- the email send is attempted; `emailOk = false` is caught and logged
        let steps := [ScriptStep.provision, ScriptStep.email, ScriptStep.comment]
        (steps, if commentOk then 0 else 1)

/-- A PR body contains a marker `<!--EMAIL:<base64>-->` (a nonempty run of
class characters between the delimiters). -/
def hasEmailMarker (body : List Char) : Prop :=
  ∃ pre p post, p ≠ [] ∧ (∀ c ∈ p, isB64char c = true) ∧
    body = pre ++ markerOpen ++ p ++ markerClose ++ post

/-! ### Marker search: soundness and completeness -/

theorem drop_takeWhile_length (p : Char → Bool) (l : List Char) :
    l.drop (l.takeWhile p).length = l.dropWhile p := by
  induction l with
  | nil => rfl
  | cons c cs ih =>
    by_cases h : p c
    · simp [List.takeWhile_cons, h, List.dropWhile_cons, ih]
    · simp [List.takeWhile_cons, h, List.dropWhile_cons]

theorem tryMarker_complete {p : List Char} (post : List Char) (hne : p ≠ [])
    (hall : ∀ c ∈ p, isB64char c = true) :
    tryMarker (markerOpen ++ (p ++ (markerClose ++ post))) = some p := by
  unfold tryMarker
  rw [dropLit_append]
  have h1 : (p ++ (markerClose ++ post)).takeWhile isB64char = p := by
    rw [List.takeWhile_append_of_pos hall]
    have : (markerClose ++ post).takeWhile isB64char = [] := by
      have hmc : markerClose = '-' :: ('-' :: ('>' :: [])) := rfl
      rw [hmc]
      simp [List.takeWhile_cons, show isB64char '-' = false from rfl]
    rw [this, List.append_nil]
  simp only [h1]
  rw [if_neg hne]
  have h2 : (p ++ (markerClose ++ post)).drop p.length = markerClose ++ post :=
    List.drop_left _ _
  rw [h2, dropLit_append]

theorem tryMarker_sound {s p : List Char} (h : tryMarker s = some p) :
    p ≠ [] ∧ (∀ c ∈ p, isB64char c = true) ∧
      ∃ rest, s = markerOpen ++ p ++ markerClose ++ rest := by
  unfold tryMarker at h
  cases hdl : dropLit markerOpen s with
  | none => rw [hdl] at h; exact absurd h (by simp)
  | some r =>
    rw [hdl] at h
    simp only at h
    by_cases hrun : r.takeWhile isB64char = []
    · rw [if_pos hrun] at h; exact absurd h (by simp)
    · rw [if_neg hrun] at h
      cases hdc : dropLit markerClose (r.drop (r.takeWhile isB64char).length) with
      | none => rw [hdc] at h; exact absurd h (by simp)
      | some rest =>
        rw [hdc] at h
        simp only [Option.some.injEq] at h
        subst h
        refine ⟨hrun, fun c hc => List.mem_takeWhile_imp hc, rest, ?_⟩
        have hs := dropLit_eq_some hdl
        have hr := dropLit_eq_some hdc
        rw [drop_takeWhile_length] at hr
        rw [hs]
        conv_lhs => rw [← List.takeWhile_append_dropWhile isB64char r, hr]
        simp [List.append_assoc]

theorem searchMarker_sound {body p : List Char} (h : searchMarker body = some p) :
    p ≠ [] ∧ (∀ c ∈ p, isB64char c = true) ∧
      (markerOpen ++ p ++ markerClose) <:+: body := by
  induction body with
  | nil => exact absurd h (by simp [searchMarker])
  | cons c cs ih =>
    rw [searchMarker] at h
    cases htry : tryMarker (c :: cs) with
    | some run =>
      rw [htry] at h
      simp only [Option.some.injEq] at h
      subst h
      obtain ⟨h1, h2, rest, h3⟩ := tryMarker_sound htry
      exact ⟨h1, h2, [], rest, by rw [h3]; simp [List.append_assoc]⟩
    | none =>
      rw [htry] at h
      obtain ⟨h1, h2, h3⟩ := ih h
      exact ⟨h1, h2, List.infix_cons h3⟩

theorem searchMarker_cons (c : Char) (cs : List Char) :
    searchMarker (c :: cs) =
      match tryMarker (c :: cs) with
      | some run => some run
      | none => searchMarker cs := rfl

theorem searchMarker_eq_of_try {body run : List Char}
    (hb : tryMarker body = some run) : searchMarker body = some run := by
  cases body with
  | nil =>
    rw [show tryMarker ([] : List Char) = none from rfl] at hb
    exact absurd hb (by simp)
  | cons c cs => rw [searchMarker_cons, hb]

theorem searchMarker_complete {body : List Char} (h : hasEmailMarker body) :
    (searchMarker body).isSome = true := by
  obtain ⟨pre, p, post, hne, hall, rfl⟩ := h
  induction pre with
  | nil =>
    simp only [List.nil_append, List.append_assoc]
    rw [searchMarker_eq_of_try (tryMarker_complete post hne hall)]
    rfl
  | cons a as ih =>
    rw [show ((a :: as) ++ markerOpen ++ p ++ markerClose ++ post) =
        a :: (as ++ markerOpen ++ p ++ markerClose ++ post) by simp]
    rw [searchMarker_cons]
    cases htry : tryMarker (a :: (as ++ markerOpen ++ p ++ markerClose ++ post)) with
    | some run => simp
    | none => simpa using ih

theorem hasEmailMarker_iff {body : List Char} :
    hasEmailMarker body ↔ (searchMarker body).isSome = true := by
  constructor
  · exact searchMarker_complete
  · intro h
    cases hs : searchMarker body with
    | none => rw [hs] at h; exact absurd h (by simp)
    | some p =>
      obtain ⟨h1, h2, pre, post, h3⟩ := searchMarker_sound hs
      exact ⟨pre, p, post, h1, h2, by rw [← h3]; simp [List.append_assoc]⟩

instance (body : List Char) : Decidable (hasEmailMarker body) :=
  decidable_of_iff _ hasEmailMarker_iff.symm

/-! ### Claims about `send_key.py` -/

/-- C1: for every pull-request body containing a marker
`<!--EMAIL:<base64>-->`, the search succeeds, its capture is a nonempty run
of marker-class characters delimited by `<!--EMAIL:` and `-->` inside the
body, and the email the script extracts is exactly the UTF-8 decoding of
the base64 decoding of that captured payload. -/
theorem C1_email_extraction {body : List Char} (h : hasEmailMarker body) :
    ∃ p, searchMarker body = some p ∧ p ≠ [] ∧ (∀ c ∈ p, isB64char c = true) ∧
      (markerOpen ++ p ++ markerClose) <:+: body ∧
      script_email body = decodeEmail p := by
  have hsome := searchMarker_complete h
  cases hs : searchMarker body with
  | none => rw [hs] at hsome; exact absurd hsome (by simp)
  | some p =>
    obtain ⟨h1, h2, h3⟩ := searchMarker_sound hs
    exact ⟨p, rfl, h1, h2, h3, by simp [script_email, hs]⟩

theorem C1_email_extraction_witness :
    hasEmailMarker ("hi <!--EMAIL:aGk=-->".toList) ∧
      ∃ p, searchMarker ("hi <!--EMAIL:aGk=-->".toList) = some p ∧
        p ≠ [] ∧ (∀ c ∈ p, isB64char c = true) ∧
        (markerOpen ++ p ++ markerClose) <:+: ("hi <!--EMAIL:aGk=-->".toList) ∧
        script_email ("hi <!--EMAIL:aGk=-->".toList) = decodeEmail p :=
  ⟨by decide, C1_email_extraction (by decide)⟩

/-- C2: for every pull-request body containing no marker matching
`<!--EMAIL:([A-Za-z0-9+/=]+)-->`, the script performs no key-provisioning
call and no email-send call and exits with status 0, whatever the external
services would have answered. -/
theorem C2_no_marker_no_action {body : List Char}
    (h : ¬ hasEmailMarker body) (provisionOk emailOk commentOk : Bool) :
    send_key_run body provisionOk emailOk commentOk = ([], 0) := by
  cases hs : searchMarker body with
  | some p =>
    exact absurd (hasEmailMarker_iff.mpr (by rw [hs]; rfl)) h
  | none => simp [send_key_run, hs]

theorem C2_no_marker_no_action_witness :
    ¬ hasEmailMarker ("no marker here".toList) ∧
      send_key_run ("no marker here".toList) true true true = ([], 0) :=
  ⟨by decide, C2_no_marker_no_action (by decide) true true true⟩

/-- C7: an email-send failure is caught and does not abort the run: with
the marker present, the payload decodable and the provisioning call
successful, the run with a failing email step still performs the
confirmation-comment POST (the full step sequence is provision, email
attempt, comment). -/
theorem C7_email_failure_nonfatal {body p : List Char} {e : List Nat}
    (hs : searchMarker body = some p) (hd : decodeEmail p = some e)
    (commentOk : Bool) :
    (send_key_run body true false commentOk).1 =
        [ScriptStep.provision, ScriptStep.email, ScriptStep.comment] ∧
      ScriptStep.comment ∈ (send_key_run body true false commentOk).1 := by
  simp [send_key_run, hs, hd]

theorem C7_email_failure_nonfatal_witness :
    searchMarker ("<!--EMAIL:aGk=-->".toList) = some ("aGk=".toList) ∧
      decodeEmail ("aGk=".toList) = some [104, 105] ∧
      (send_key_run ("<!--EMAIL:aGk=-->".toList) true false true).1 =
        [ScriptStep.provision, ScriptStep.email, ScriptStep.comment] ∧
      ScriptStep.comment ∈ (send_key_run ("<!--EMAIL:aGk=-->".toList) true false true).1 :=
  ⟨by decide, by decide,
    @C7_email_failure_nonfatal ("<!--EMAIL:aGk=-->".toList) ("aGk=".toList) [104, 105]
      (by decide) (by decide) true⟩

/-! ## `convert_tool_error.py`

Each `re.sub` pattern of the script is hand-compiled into a scanner that
attempts a match at the head of the input and returns the replacement text
together with (match length − 1); all the patterns consume at least one
character.  The compilation of the greedy/lazy quantifiers is justified
pattern by pattern in the comments below and was cross-checked against
CPython's `re` module on hundreds of thousands of random inputs. -/

/-- Fuel-driven worker for `subAll` (structural recursion on the fuel, so
that the kernel can evaluate it); the fuel is an upper bound on the length
of the remaining input. -/
def subAllF (tryRule : List Char → Option (List Char × Nat)) :
    Nat → List Char → List Char
  | _, [] => []
  | 0, s => s
  | fuel + 1, c :: cs =>
    match tryRule (c :: cs) with
    | some (rep, k) => rep ++ subAllF tryRule fuel (cs.drop k)
    | none => c :: subAllF tryRule fuel cs

theorem subAllF_fuel_irrel (tryRule : List Char → Option (List Char × Nat)) :
    ∀ f1 f2 s, s.length ≤ f1 → s.length ≤ f2 →
      subAllF tryRule f1 s = subAllF tryRule f2 s := by
  intro f1
  induction f1 with
  | zero =>
    intro f2 s h1 _
    cases s with
    | nil => cases f2 <;> rfl
    | cons c cs => simp at h1
  | succ f ih =>
    intro f2 s h1 h2
    cases s with
    | nil => cases f2 <;> rfl
    | cons c cs =>
      cases f2 with
      | zero => simp at h2
      | succ f2p =>
        simp only [subAllF]
        cases htry : tryRule (c :: cs) with
        | some rk =>
          obtain ⟨rep, k⟩ := rk
          have hd : (cs.drop k).length ≤ f := by
            have := List.length_drop k cs
            simp at h1; omega
          have hd2 : (cs.drop k).length ≤ f2p := by
            have := List.length_drop k cs
            simp at h2; omega
          simp only []
          rw [ih f2p _ hd hd2]
        | none =>
          have hc1 : cs.length ≤ f := by simp at h1; omega
          have hc2 : cs.length ≤ f2p := by simp at h2; omega
          simp only []
          rw [ih f2p _ hc1 hc2]

/-- One `re.sub` pass: scan left to right, attempt the pattern at each
position, replace non-overlapping matches, resume after each match. -/
def subAll (tryRule : List Char → Option (List Char × Nat)) (s : List Char) : List Char :=
  subAllF tryRule s.length s

theorem subAll_nil (tryRule : List Char → Option (List Char × Nat)) :
    subAll tryRule [] = [] := rfl

/-- Unfolding equation for `subAll` on a nonempty input. -/
theorem subAll_cons (tryRule : List Char → Option (List Char × Nat))
    (c : Char) (cs : List Char) :
    subAll tryRule (c :: cs) =
      match tryRule (c :: cs) with
      | some (rep, k) => rep ++ subAll tryRule (cs.drop k)
      | none => c :: subAll tryRule cs := by
  show subAllF tryRule (cs.length + 1) (c :: cs) = _
  simp only [subAllF]
  cases htry : tryRule (c :: cs) with
  | some rk =>
    obtain ⟨rep, k⟩ := rk
    have := List.length_drop k cs
    simp only []
    rw [subAllF_fuel_irrel tryRule cs.length (cs.drop k).length (cs.drop k)
      (by omega) (le_refl _)]
    rfl
  | none => rfl

def teList : List Char := "ToolError".toList

def notCLtGt (c : Char) : Bool := !(c = ',' || c = '<' || c = '>')

def notLtGt (c : Char) : Bool := !(c = '<' || c = '>')

/-- `[^()]` of the constructor patterns. -/
def ctorArgChar (c : Char) : Bool := !(c = '(' || c = ')')

/-- `[^)]` of the `format!` patterns. -/
def fmtArgChar (c : Char) : Bool := !(c = ')')

/-- `[^}]` of the `use` patterns. -/
def braceFree (c : Char) : Bool := !(c = '\x7d')

/-- The capture `([^,<>]+(?:<[^<>]*>)?[^,<>]*)` of the `Result` patterns.
Greedy with no productive backtracking: the leading `[^,<>]+` takes the
maximal run; if the next character is `<`, the optional `<[^<>]*>` must
close with `>` (otherwise every backtracking alternative leaves the scan
stuck on a `<`, which neither `[^,<>]` nor `,` accepts); then the final
`[^,<>]*` takes the maximal run. -/
def parseResultGroup (r : List Char) : Option (List Char × List Char) :=
  let a := r.takeWhile notCLtGt
  if a = [] then none
  else
    let r2 := r.drop a.length
    match r2 with
    | '<' :: r2t =>
      let d := r2t.takeWhile notLtGt
      match r2t.drop d.length with
      | '>' :: r3 =>
        let cc := r3.takeWhile notCLtGt
        some (a ++ '<' :: (d ++ '>' :: cc), r3.drop cc.length)
      | _ => none
    | _ => some (a, r2)

/-- `Result<([^,<>]+(?:<[^<>]*>)?[^,<>]*),\s*ToolError>` →
`Result<\1, ErrorData>`.  After the `,`, the greedy `\s*` takes the maximal
whitespace run; shortening it would leave the scan on a whitespace
character where the literal `T` is required, so no backtracking helps. -/
def tryResult1 (s : List Char) : Option (List Char × Nat) :=
  match dropLit ("Result<".toList) s with
  | none => none
  | some r =>
    match parseResultGroup r with
    | none => none
    | some (g, r2) =>
      match r2 with
      | ',' :: r3 =>
        match dropLit ("ToolError>".toList) (r3.drop (r3.takeWhile pyWs).length) with
        | none => none
        | some _ =>
          some ("Result<".toList ++ g ++ ", ErrorData>".toList,
            17 + g.length + (r3.takeWhile pyWs).length)
      | _ => none

/-- `-> Result<Vec<Content>, ToolError>` (a literal pattern). -/
def tryResult2 (s : List Char) : Option (List Char × Nat) :=
  match dropLit ("-> Result<Vec<Content>, ToolError>".toList) s with
  | none => none
  | some _ => some ("-> Result<Vec<Content>, ErrorData>".toList, 33)

/-- `-> Result<([^,<>]+(?:<[^<>]*>)?[^,<>]*), ToolError>` →
`-> Result<\1, ErrorData>`. -/
def tryResult3 (s : List Char) : Option (List Char × Nat) :=
  match dropLit ("-> Result<".toList) s with
  | none => none
  | some r =>
    match parseResultGroup r with
    | none => none
    | some (g, r2) =>
      match dropLit (", ToolError>".toList) r2 with
      | none => none
      | some _ => some ("-> Result<".toList ++ g ++ ", ErrorData>".toList, 21 + g.length)

/-- `ToolError::<name>\(([^()]+)\)` → `ErrorData::new(ErrorCode::<code>, \1,
None)`.  The greedy `[^()]+` takes the maximal paren-free run; a shorter
run would leave the scan on a paren-free character where `)` is required,
so the match succeeds exactly when that maximal run is nonempty and is
followed by `)`. -/
def tryCtor (name code : List Char) (s : List Char) : Option (List Char × Nat) :=
  match dropLit (teList ++ "::".toList ++ name ++ ['(']) s with
  | none => none
  | some r =>
    if r.takeWhile ctorArgChar = [] then none
    else
      match r.drop (r.takeWhile ctorArgChar).length with
      | ')' :: _ =>
        some ("ErrorData::new(ErrorCode::".toList ++ code ++ ", ".toList ++
          r.takeWhile ctorArgChar ++ ", None)".toList,
          (teList ++ "::".toList ++ name ++ ['(']).length + (r.takeWhile ctorArgChar).length)
      | _ => none

/-- `ToolError::<name>\(format!\(([^)]+)\)\)` →
`ErrorData::new(ErrorCode::<code>, format!(\1), None)`.  `[^)]+` stops at
the first `)`, which must be followed by a second `)`. -/
def tryFmt (name code : List Char) (s : List Char) : Option (List Char × Nat) :=
  match dropLit (teList ++ "::".toList ++ name ++ "(format!(".toList) s with
  | none => none
  | some r =>
    if r.takeWhile fmtArgChar = [] then none
    else
      match r.drop (r.takeWhile fmtArgChar).length with
      | ')' :: ')' :: _ =>
        some ("ErrorData::new(ErrorCode::".toList ++ code ++ ", format!(".toList ++
          r.takeWhile fmtArgChar ++ "), None)".toList,
          (teList ++ "::".toList ++ name ++ "(format!(".toList).length +
            (r.takeWhile fmtArgChar).length + 1)
      | _ => none

/-- Split a list at the first occurrence of `ToolError`:
`splitFirstTE s = some (g1, g2)` iff `s = g1 ++ "ToolError" ++ g2` with
`g1` minimal. -/
def splitFirstTE : List Char → Option (List Char × List Char)
  | [] => none
  | c :: cs =>
    match dropLit teList (c :: cs) with
    | some g2 => some ([], g2)
    | none => (splitFirstTE cs).map (fun p => (c :: p.1, p.2))

/-- `use mcp_core::\{([^}]*?)ToolError([^}]*?)\};` (and the
`handler::` variant).  Both lazy groups live inside the maximal `}`-free
run after the opening brace; that run must be immediately followed by `};`
and contain `ToolError`; laziness makes the first group end at the first
occurrence.  The replacement re-joins the comma-split, stripped, nonempty,
non-`ToolError` entries with `", "`, or is empty when none remain. -/
def useImports (g1 g2 : List Char) : List (List Char) :=
  ((splitOnChar ',' (g1 ++ g2)).map pyStrip).filter
    (fun x => !x.isEmpty && !(x == teList))

def tryUse (prefixLit : List Char) (s : List Char) : Option (List Char × Nat) :=
  match dropLit prefixLit s with
  | none => none
  | some r =>
    match dropLit "\x7d;".toList (r.drop (r.takeWhile braceFree).length) with
    | none => none
    | some _ =>
      match splitFirstTE (r.takeWhile braceFree) with
      | none => none
      | some (g1, g2) =>
        if (useImports g1 g2).isEmpty then
          some ([], prefixLit.length + (r.takeWhile braceFree).length + 1)
        else
          some (prefixLit ++ joinSep ", ".toList (useImports g1 g2) ++ "\x7d;".toList,
            prefixLit.length + (r.takeWhile braceFree).length + 1)

/-- The thirteen substitution rules of `convert_tool_errors`, in the order
the script applies them. -/
def ruleList : List (List Char → Option (List Char × Nat)) :=
  [tryResult1, tryResult2, tryResult3,
    tryCtor "ExecutionError".toList "INTERNAL_ERROR".toList,
    tryCtor "InvalidParameters".toList "INVALID_PARAMS".toList,
    tryCtor "NotFound".toList "INVALID_REQUEST".toList,
    tryCtor "SchemaError".toList "INVALID_PARAMS".toList,
    tryFmt "ExecutionError".toList "INTERNAL_ERROR".toList,
    tryFmt "InvalidParameters".toList "INVALID_PARAMS".toList,
    tryFmt "NotFound".toList "INVALID_REQUEST".toList,
    tryFmt "SchemaError".toList "INVALID_PARAMS".toList,
    tryUse "use mcp_core::\x7b".toList,
    tryUse "use mcp_core::handler::\x7b".toList]

/-- One `re.sub` step of the script: the content is replaced and the
`changes_made` flag set only when the substitution changed something. -/
def applyRule (st : List Char × Bool) (rule : List Char → Option (List Char × Nat)) :
    List Char × Bool :=
  let new := subAll rule st.1
  if new = st.1 then st else (new, true)

/-- `convert_tool_errors(content)`: returns `(content, changes_made)`. -/
def convert_tool_errors (content : List Char) : List Char × Bool :=
  ruleList.foldl applyRule (content, false)

/-! ### `add_imports_if_needed` and `process_file` -/

def insertAt (n : Nat) (x : List Char) (ls : List (List Char)) : List (List Char) :=
  ls.take n ++ [x] ++ ls.drop n

/-- Index of the last line starting with `use ` (the script keeps
overwriting `import_line = i + 1` while scanning forward). -/
def lastUseIdx : List (List Char) → Option Nat
  | [] => none
  | l :: ls =>
    match lastUseIdx ls with
    | some i => some (i + 1)
    | none => if ("use ".toList).isPrefixOf l then some 0 else none

def add_imports_if_needed (content : List Char) : List Char :=
  if containsSub "ErrorData".toList content || containsSub "ErrorCode".toList content then
    if containsSub "use rmcp::model::\x7bErrorData, ErrorCode\x7d".toList content
        || containsSub "use rmcp::model::ErrorData".toList content then content
    else
      let lines := splitOnChar '\n' content
      let imp := "use rmcp::model::\x7bErrorData, ErrorCode\x7d;".toList
      let newlines :=
        match lastUseIdx lines with
        | some i => insertAt (i + 1) imp lines
        | none => insertAt 0 imp lines
      joinSep ['\n'] newlines
  else content

/-- A source file as `process_file` sees it: its path, its content, and
whether reading it raises (the `try/except` in `process_file` catches any
such exception and returns `False`). -/
structure SourceFile where
  path : List Char
  content : List Char
  readFails : Bool

/-- `process_file`: returns `(written, content now on disk)`. -/
def process_file (f : SourceFile) : Bool × List Char :=
  if f.readFails then (false, f.content)
  else if !(containsSub teList f.content) then (false, f.content)
  else if containsSub "/target/".toList f.path then (false, f.content)
  else
    let r := convert_tool_errors f.content
    if r.2 then (true, add_imports_if_needed r.1) else (false, f.content)

/-- `main()`: aborts with status 1 when the `find` subprocess fails,
otherwise processes every file and exits 0 (a failing `cargo fmt` is only
logged). -/
def script_main (findOk : Bool) (files : List SourceFile) (fmtOk : Bool) :
    List (Bool × List Char) × Nat :=
  if findOk = false then ([], 1)
  else (files.map process_file, 0)

/-! ### Claims about `convert_tool_error.py`: frame conditions and exits -/

/-- C5: a file whose content has no occurrence of `ToolError` is neither
rewritten nor written back; and in general a write happens only when the
substitution rules reported a change. -/
theorem C5_write_only_on_change (f : SourceFile) :
    (containsSub teList f.content = false → process_file f = (false, f.content)) ∧
    ((process_file f).1 = true →
      containsSub teList f.content = true ∧ (convert_tool_errors f.content).2 = true) := by
  constructor
  · intro h
    rw [process_file]
    cases hr : f.readFails
    · simp [h]
    · simp
  · intro h
    cases hr : f.readFails with
    | true => rw [process_file] at h; simp [hr] at h
    | false =>
      cases h2 : containsSub teList f.content with
      | false => rw [process_file] at h; simp [hr, h2] at h
      | true =>
        refine ⟨rfl, ?_⟩
        rw [process_file] at h
        cases h4 : (convert_tool_errors f.content).2 with
        | true => rfl
        | false => simp [hr, h2, h4] at h

theorem C5_write_only_on_change_witness :
    containsSub teList ("fn main() \x7b\x7d".toList) = false ∧
    process_file ⟨"crates/a.rs".toList, "fn main() \x7b\x7d".toList, false⟩ =
      (false, "fn main() \x7b\x7d".toList) ∧
    (process_file ⟨"crates/b.rs".toList, "ToolError::NotFound(x)".toList, false⟩).1 = true ∧
    (containsSub teList ("ToolError::NotFound(x)".toList) = true ∧
      (convert_tool_errors ("ToolError::NotFound(x)".toList)).2 = true) :=
  ⟨by decide,
    (C5_write_only_on_change ⟨"crates/a.rs".toList, "fn main() \x7b\x7d".toList, false⟩).1
      (by decide),
    by decide,
    (C5_write_only_on_change ⟨"crates/b.rs".toList, "ToolError::NotFound(x)".toList, false⟩).2
      (by decide)⟩

/-- C6: a file whose path lies under the build-output directory (its path
contains `/target/`) is never modified, whatever its content. -/
theorem C6_target_dir_skipped (f : SourceFile)
    (h : containsSub "/target/".toList f.path = true) :
    process_file f = (false, f.content) := by
  rw [process_file]
  cases hr : f.readFails
  · cases hc : containsSub teList f.content
    · simp [hc]
    · simp at h
      simp [hc, h]
  · simp

theorem C6_target_dir_skipped_witness :
    containsSub "/target/".toList ("crates/target/debug/a.rs".toList) = true ∧
    process_file
        ⟨"crates/target/debug/a.rs".toList, "ToolError::NotFound(x)".toList, false⟩ =
      (false, "ToolError::NotFound(x)".toList) :=
  ⟨by decide,
    C6_target_dir_skipped
      ⟨"crates/target/debug/a.rs".toList, "ToolError::NotFound(x)".toList, false⟩
      (by decide)⟩

/-- C8: the rewrite script exits with status 1 when file discovery fails
and with status 0 otherwise; every file is still processed in order, and a
per-file exception (here: a failing read) is caught, leaving that file
unwritten while the loop continues. -/
theorem C8_exit_behaviour (files : List SourceFile) (fmtOk : Bool) :
    script_main false files fmtOk = ([], 1) ∧
    (script_main true files fmtOk).2 = 0 ∧
    (script_main true files fmtOk).1 = files.map process_file ∧
    (∀ f ∈ files, f.readFails = true → process_file f = (false, f.content)) := by
  refine ⟨rfl, rfl, rfl, ?_⟩
  intro f _ hf
  rw [process_file, hf]
  simp

/-! ### Every rule matches only in the presence of `ToolError`

Each of the thirteen patterns contains the literal `ToolError`, so none of
them can match inside a content with no occurrence of that identifier; a
`ToolError`-free content is a fixed point of `convert_tool_errors`. -/

theorem parseResultGroup_suffix {r g r2 : List Char}
    (h : parseResultGroup r = some (g, r2)) : r2 <:+ r := by
  simp only [parseResultGroup] at h
  split at h
  · exact absurd h (by simp)
  · split at h
    · split at h
      · rename_i r2t heq1 x r3 heq2
        simp only [Option.some.injEq, Prod.mk.injEq] at h
        rw [← h.2]
        calc r3.drop (r3.takeWhile notCLtGt).length <:+ r3 := List.drop_suffix _ _
          _ <:+ '>' :: r3 := List.drop_suffix 1 ('>' :: r3)
          _ <:+ r2t := by rw [← heq2]; exact List.drop_suffix _ _
          _ <:+ '<' :: r2t := List.drop_suffix 1 ('<' :: r2t)
          _ <:+ r := by rw [← heq1]; exact List.drop_suffix _ _
      · exact absurd h (by simp)
    · simp only [Option.some.injEq, Prod.mk.injEq] at h
      rw [← h.2]
      exact List.drop_suffix _ _

theorem tryResult1_some_te {s : List Char} {r : List Char × Nat}
    (h : tryResult1 s = some r) : teList <:+: s := by
  unfold tryResult1 at h
  split at h
  · exact absurd h (by simp)
  · rename_i rr h1
    split at h
    · exact absurd h (by simp)
    · rename_i gr g r2 h2
      split at h
      · rename_i r3
        split at h
        · exact absurd h (by simp)
        · rename_i rest h3
          have hinf : teList <:+: r3.drop (r3.takeWhile pyWs).length := by
            rw [dropLit_eq_some h3]
            exact ⟨[], ['>'] ++ rest, by simp [teList]⟩
          have hs : s = "Result<".toList ++ rr := dropLit_eq_some h1
          have hsuf : (',' :: r3) <:+ rr := parseResultGroup_suffix h2
          calc teList <:+: r3.drop (r3.takeWhile pyWs).length := hinf
            _ <:+: r3 := (List.drop_suffix _ _).isInfix
            _ <:+: (',' :: r3) := List.infix_cons (List.infix_refl _)
            _ <:+: rr := hsuf.isInfix
            _ <:+: s := by rw [hs]; exact ⟨"Result<".toList, [], by simp⟩
      · exact absurd h (by simp)

theorem tryResult2_some_te {s : List Char} {r : List Char × Nat}
    (h : tryResult2 s = some r) : teList <:+: s := by
  unfold tryResult2 at h
  split at h
  · exact absurd h (by simp)
  · rename_i rest h1
    rw [dropLit_eq_some h1]
    have hte : teList <:+: "-> Result<Vec<Content>, ToolError>".toList := by decide
    exact hte.trans ⟨[], rest, by simp⟩

theorem tryResult3_some_te {s : List Char} {r : List Char × Nat}
    (h : tryResult3 s = some r) : teList <:+: s := by
  unfold tryResult3 at h
  split at h
  · exact absurd h (by simp)
  · rename_i rr h1
    split at h
    · exact absurd h (by simp)
    · rename_i gr g r2 h2
      split at h
      · exact absurd h (by simp)
      · rename_i rest h3
        have hinf : teList <:+: r2 := by
          rw [dropLit_eq_some h3]
          exact ⟨", ".toList, ['>'] ++ rest, by simp [teList]⟩
        have hs : s = "-> Result<".toList ++ rr := dropLit_eq_some h1
        calc teList <:+: r2 := hinf
          _ <:+: rr := (parseResultGroup_suffix h2).isInfix
          _ <:+: s := by rw [hs]; exact ⟨"-> Result<".toList, [], by simp⟩

theorem tryCtor_some_te {name code s : List Char} {r : List Char × Nat}
    (h : tryCtor name code s = some r) : teList <:+: s := by
  unfold tryCtor at h
  split at h
  · exact absurd h (by simp)
  · rename_i rr h1
    rw [dropLit_eq_some h1]
    exact ⟨[], "::".toList ++ name ++ ['('] ++ rr, by simp⟩

theorem tryFmt_some_te {name code s : List Char} {r : List Char × Nat}
    (h : tryFmt name code s = some r) : teList <:+: s := by
  unfold tryFmt at h
  split at h
  · exact absurd h (by simp)
  · rename_i rr h1
    rw [dropLit_eq_some h1]
    exact ⟨[], "::".toList ++ name ++ "(format!(".toList ++ rr, by simp⟩

theorem splitFirstTE_inv {body g1 g2 : List Char}
    (h : splitFirstTE body = some (g1, g2)) : body = g1 ++ teList ++ g2 := by
  induction body generalizing g1 with
  | nil => exact absurd h (by simp [splitFirstTE])
  | cons c cs ih =>
    rw [splitFirstTE] at h
    cases h1 : dropLit teList (c :: cs) with
    | some rest =>
      rw [h1] at h
      simp only [Option.some.injEq, Prod.mk.injEq] at h
      obtain ⟨hg1, hg2⟩ := h
      rw [← hg1, ← hg2]
      simpa using dropLit_eq_some h1
    | none =>
      rw [h1] at h
      cases h2 : splitFirstTE cs with
      | none => rw [h2] at h; exact absurd h (by simp)
      | some p =>
        obtain ⟨q1, q2⟩ := p
        rw [h2] at h
        simp only [Option.map_some, Option.some.injEq, Prod.mk.injEq] at h
        obtain ⟨rfl, rfl⟩ := h
        have hcs := ih h2
        simp [hcs]

theorem tryUse_some_te {prefixLit s : List Char} {r : List Char × Nat}
    (h : tryUse prefixLit s = some r) : teList <:+: s := by
  unfold tryUse at h
  split at h
  · exact absurd h (by simp)
  · rename_i rr h1
    split at h
    · exact absurd h (by simp)
    · rename_i rest h2
      split at h
      · exact absurd h (by simp)
      · rename_i p g1 g2 h3
        have hbody := splitFirstTE_inv h3
        have hin : teList <:+: rr.takeWhile braceFree := by
          rw [hbody]; exact ⟨g1, g2, by simp⟩
        have hsub : rr.takeWhile braceFree <+: rr :=
          List.takeWhile_prefix _
        rw [dropLit_eq_some h1]
        exact (hin.trans hsub.isInfix).trans ⟨prefixLit, [], by simp⟩

/-- Any match of any of the thirteen rules exhibits `ToolError` in the
scanned text. -/
theorem ruleList_some_te {rule : List Char → Option (List Char × Nat)}
    (hrule : rule ∈ ruleList) {s : List Char} {r : List Char × Nat}
    (h : rule s = some r) : teList <:+: s := by
  simp only [ruleList, List.mem_cons, List.not_mem_nil, or_false] at hrule
  rcases hrule with rfl | rfl | rfl | rfl | rfl | rfl | rfl | rfl | rfl | rfl | rfl | rfl | rfl
  · exact tryResult1_some_te h
  · exact tryResult2_some_te h
  · exact tryResult3_some_te h
  · exact tryCtor_some_te h
  · exact tryCtor_some_te h
  · exact tryCtor_some_te h
  · exact tryCtor_some_te h
  · exact tryFmt_some_te h
  · exact tryFmt_some_te h
  · exact tryFmt_some_te h
  · exact tryFmt_some_te h
  · exact tryUse_some_te h
  · exact tryUse_some_te h

/-- A substitution whose every match needs `ToolError` is the identity on
`ToolError`-free text. -/
theorem subAll_id_of_no_te {tryRule : List Char → Option (List Char × Nat)}
    (hty : ∀ s r, tryRule s = some r → teList <:+: s)
    {s : List Char} (h : ¬ teList <:+: s) : subAll tryRule s = s := by
  induction s with
  | nil => rfl
  | cons c cs ih =>
    rw [subAll_cons]
    cases htry : tryRule (c :: cs) with
    | some r => exact absurd (hty _ _ htry) h
    | none =>
      simp only []
      rw [ih (fun hcs => h (List.infix_cons hcs))]

/-- A `ToolError`-free content is a fixed point of `convert_tool_errors`
and the flag stays `false`. -/
theorem convert_fixpoint_of_no_te {c : List Char}
    (h : containsSub teList c = false) : convert_tool_errors c = (c, false) := by
  have hni : ¬ teList <:+: c := by
    intro hc
    rw [ containsSub_iff_infix.mpr hc] at h
    exact absurd h (by simp)
  have key : ∀ (rules : List (List Char → Option (List Char × Nat))) (b : Bool),
      (∀ rule ∈ rules, ∀ s r, rule s = some r → teList <:+: s) →
      rules.foldl applyRule (c, b) = (c, b) := by
    intro rules
    induction rules with
    | nil => intro b _; rfl
    | cons rule rs ih =>
      intro b hall
      rw [List.foldl_cons]
      have h1 : applyRule (c, b) rule = (c, b) := by
        have : subAll rule c = c :=
          subAll_id_of_no_te (hall rule (by simp)) hni
        simp [applyRule, this]
      rw [h1]
      exact ih b (fun rr hr => hall rr (by simp [hr]))
  exact key ruleList false (fun rule hr s r hsr => ruleList_some_te hr hsr)

/-- C4 (amended): the rewrite is not idempotent in general (see the
counterexample), but a second application of `convert_tool_errors` changes
nothing whenever the first application's output no longer contains
`ToolError`. -/
theorem C4_amended_second_pass_noop {c : List Char}
    (h : containsSub teList (convert_tool_errors c).1 = false) :
    convert_tool_errors ((convert_tool_errors c).1) = ((convert_tool_errors c).1, false) :=
  convert_fixpoint_of_no_te h

theorem C4_amended_second_pass_noop_witness :
    containsSub teList
        (convert_tool_errors ("fn f() -> Result<A, ToolError> \x7b ToolError::NotFound(m) \x7d".toList)).1
      = false ∧
    convert_tool_errors
        ((convert_tool_errors ("fn f() -> Result<A, ToolError> \x7b ToolError::NotFound(m) \x7d".toList)).1) =
      ((convert_tool_errors ("fn f() -> Result<A, ToolError> \x7b ToolError::NotFound(m) \x7d".toList)).1,
        false) :=
  ⟨by decide, C4_amended_second_pass_noop (by decide)⟩

/-! ### Counterexamples: C3, C4, C10

The import-cleanup rules can splice text across a removed `ToolError`
occurrence (`(g1+g2).split(',')`), which breaks all three universally
quantified claims. -/

/-- Input refuting C3: contains `ToolError::NotFound("x")`, yet the
import-cleanup pass splices away the `Error` head of the freshly written
`ErrorData::new(...)`, so the advertised replacement text is absent from
the output (which is `use mcp_core::\x7bData::new(ErrorCode::INVALID_REQUEST,
"x", None)\x7d;`). -/
def cexC3 : List Char :=
  "use mcp_core::\x7bToolToolError::NotFound(\"x\"), ToolError\x7d;".toList

/-- C3 counterexample: a content containing `ToolError::NotFound("x")`
whose fully rewritten form does not contain
`ErrorData::new(ErrorCode::INVALID_REQUEST, "x", None)`. -/
theorem C3_counterexample :
    containsSub ("ToolError::NotFound(\"x\")".toList) cexC3 = true ∧
    containsSub ("ErrorData::new(ErrorCode::INVALID_REQUEST, \"x\", None)".toList)
        (convert_tool_errors cexC3).1 = false ∧
    (convert_tool_errors cexC3).1 =
      "use mcp_core::\x7bData::new(ErrorCode::INVALID_REQUEST, \"x\", None)\x7d;".toList := by
  decide

/-- Input refuting C4: the first pass removes `ToolError` from the import
list and re-joins the remaining entries into `Result<A, ToolError>`, which
the `Result` rule of a second pass then rewrites again. -/
def cexC4 : List Char :=
  "use mcp_core::\x7bResult<A, ToolError, ToolError>\x7d;".toList

/-- C4 counterexample: applying `convert_tool_errors` to its own output is
not the identity on that output. -/
theorem C4_counterexample :
    (convert_tool_errors (convert_tool_errors cexC4).1).1 ≠ (convert_tool_errors cexC4).1 ∧
    (convert_tool_errors cexC4).1 = "use mcp_core::\x7bResult<A, ToolError>\x7d;".toList ∧
    (convert_tool_errors (convert_tool_errors cexC4).1).1 =
      "use mcp_core::\x7bResult<A, ErrorData>\x7d;".toList := by
  decide

/-- Input refuting C10: the brace list `AToolErrorB, ToolError` contains
the entry `ToolError`, but the regex consumes the first occurrence of the
*substring* `ToolError`, which lies inside the other entry `AToolErrorB`;
that entry is spliced to `AB` instead of being preserved. -/
def cexC10 : List Char := "use mcp_core::\x7bAToolErrorB, ToolError\x7d;".toList

/-- C10 counterexample: the `use mcp_core::{...}` rewrite mangles an entry
that merely contains `ToolError` as a substring; the non-`ToolError` entry
`AToolErrorB` is not preserved. -/
theorem C10_counterexample :
    subAll (tryUse ("use mcp_core::\x7b".toList)) cexC10 =
      "use mcp_core::\x7bAB\x7d;".toList ∧
    containsSub "AToolErrorB".toList
        (subAll (tryUse ("use mcp_core::\x7b".toList)) cexC10) = false ∧
    (convert_tool_errors cexC10).1 = "use mcp_core::\x7bAB\x7d;".toList := by
  decide

/-! ### The `use` rewrite on well-formed import lists (amended C10)

Infrastructure: computing `splitOnChar`/`pyStrip`/`joinSep` on an import
list whose entries are comma-, brace- and whitespace-free and do not
contain `ToolError` as a substring. -/

theorem dropLit_none_not_prefix {lit s : List Char}
    (h : dropLit lit s = none) : ¬ lit <+: s := by
  rintro ⟨t, rfl⟩
  rw [dropLit_append] at h
  exact absurd h (by simp)

theorem te_no_self_overlap :
    ∀ j < teList.length, 0 < j → ¬ ((teList.drop j) <+: teList) := by decide

theorem splitFirstTE_cons (c : Char) (cs : List Char) :
    splitFirstTE (c :: cs) =
      match dropLit teList (c :: cs) with
      | some g2 => some ([], g2)
      | none => (splitFirstTE cs).map (fun p => (c :: p.1, p.2)) := rfl

/-- When the text left of the explicit `ToolError` has no occurrence of it,
`splitFirstTE` splits exactly there (`ToolError` has no self-overlap). -/
theorem splitFirstTE_exact {x y : List Char} (hx : ¬ teList <:+: x) :
    splitFirstTE (x ++ (teList ++ y)) = some (x, y) := by
  induction x with
  | nil =>
    have hsh : teList ++ y = 'T' :: ("oolError".toList ++ y) := rfl
    have h0 : dropLit teList (teList ++ y) = some y := dropLit_append _ _
    rw [List.nil_append, hsh, splitFirstTE_cons, ← hsh, h0]
  | cons c x' ih =>
    have hnp : ¬ teList <+: ((c :: x') ++ (teList ++ y)) := by
      intro hp
      by_cases hlen : teList.length ≤ (c :: x').length
      · exact hx (List.prefix_of_prefix_length_le hp (List.prefix_append _ _) hlen).isInfix
      · push_neg at hlen
        have hxp : (c :: x') <+: teList :=
          List.prefix_of_prefix_length_le (List.prefix_append _ _) hp (le_of_lt hlen)
        have hx_take : (c :: x') = teList.take (c :: x').length :=
          List.prefix_iff_eq_take.mp hxp
        have hTEeq : teList = (c :: x') ++ teList.drop (c :: x').length := by
          conv_lhs => rw [← List.take_append_drop (c :: x').length teList]
          rw [← hx_take]
        have hp2 : (c :: x') ++ teList.drop (c :: x').length <+:
            (c :: x') ++ (teList ++ y) := hTEeq ▸ hp
        have hp3 : teList.drop (c :: x').length <+: teList ++ y :=
          (List.prefix_append_right_inj (c :: x')).mp hp2
        have hp4 : teList.drop (c :: x').length <+: teList :=
          List.prefix_of_prefix_length_le hp3 (List.prefix_append _ _)
            (by simp [List.length_drop])
        exact te_no_self_overlap (c :: x').length hlen (by simp) hp4
    have hne : dropLit teList ((c :: x') ++ (teList ++ y)) = none := by
      cases hd : dropLit teList ((c :: x') ++ (teList ++ y)) with
      | none => rfl
      | some t =>
        exact absurd ⟨t, (dropLit_eq_some hd).symm⟩ hnp
    have hx' : ¬ teList <:+: x' := fun hin => hx (List.infix_cons hin)
    rw [List.cons_append, splitFirstTE_cons, ← List.cons_append, hne, ih hx']
    rfl

theorem splitOnChar_ne_nil (sep : Char) (s : List Char) : splitOnChar sep s ≠ [] := by
  cases s with
  | nil => simp [splitOnChar]
  | cons c cs =>
    rw [splitOnChar]
    by_cases h : c = sep
    · simp [h]
    · simp only [if_neg h]
      cases splitOnChar sep cs <;> simp

theorem splitOnChar_cons_sep (sep : Char) (cs : List Char) :
    splitOnChar sep (sep :: cs) = [] :: splitOnChar sep cs := by
  rw [splitOnChar]; simp

theorem splitOnChar_cons_other {sep c : Char} (h : c ≠ sep) (cs : List Char) :
    splitOnChar sep (c :: cs) =
      match splitOnChar sep cs with
      | [] => [[c]]
      | p :: r => (c :: p) :: r := by
  rw [splitOnChar]; simp [h]

/-- Splitting a separator-free piece followed by a separator. -/
theorem splitOnChar_append_sep {sep : Char} {e t : List Char}
    (he : ∀ c ∈ e, c ≠ sep) :
    splitOnChar sep (e ++ sep :: t) = e :: splitOnChar sep t := by
  induction e with
  | nil => simpa using splitOnChar_cons_sep sep t
  | cons c e' ih =>
    have hc : c ≠ sep := he c (by simp)
    have ih' := ih (fun d hd => he d (by simp [hd]))
    rw [List.cons_append, splitOnChar_cons_other hc, ih']

/-- Splitting a separator-free string. -/
theorem splitOnChar_noSep {sep : Char} {e : List Char}
    (he : ∀ c ∈ e, c ≠ sep) : splitOnChar sep e = [e] := by
  induction e with
  | nil => rfl
  | cons c e' ih =>
    have hc : c ≠ sep := he c (by simp)
    have ih' := ih (fun d hd => he d (by simp [hd]))
    rw [splitOnChar_cons_other hc, ih']

theorem joinSep_cons_cons (sep : List Char) (e e2 : List Char) (rest : List (List Char)) :
    joinSep sep (e :: e2 :: rest) = e ++ sep ++ joinSep sep (e2 :: rest) := rfl

/-- `e1, e2, …` splits at the commas back into its entries, the later
entries keeping the space of the `", "` separator. -/
theorem splitOnChar_joinSep (e : List Char) (rest : List (List Char))
    (hall : ∀ x ∈ e :: rest, ∀ c ∈ x, c ≠ ',') :
    splitOnChar ',' (joinSep ", ".toList (e :: rest)) =
      e :: rest.map (fun x => ' ' :: x) := by
  induction rest generalizing e with
  | nil => exact splitOnChar_noSep (hall e (by simp))
  | cons e2 rest' ih =>
    have hsep : ", ".toList = (',' : Char) :: [' '] := rfl
    rw [joinSep_cons_cons, hsep]
    have he : ∀ c ∈ e, c ≠ ',' := hall e (by simp)
    rw [show e ++ (',' :: [' ']) ++ joinSep (',' :: [' ']) (e2 :: rest') =
        e ++ (',' :: (' ' :: joinSep (',' :: [' ']) (e2 :: rest'))) by simp]
    rw [splitOnChar_append_sep he]
    have ih2 := ih e2 (fun x hx => hall x (by simp at hx ⊢; tauto))
    rw [hsep] at ih2
    rw [splitOnChar_cons_other (by decide : (' ' : Char) ≠ ','), ih2]
    rfl

theorem pyStrip_eq_self {e : List Char} (h : ∀ c ∈ e, pyWs c = false) :
    pyStrip e = e := by
  unfold pyStrip
  have h1 : e.dropWhile pyWs = e := by
    cases e with
    | nil => rfl
    | cons c cs => rw [List.dropWhile_cons_of_neg (by simp [h c (by simp)])]
  rw [h1]
  have h2 : e.reverse.dropWhile pyWs = e.reverse := by
    cases hr : e.reverse with
    | nil => rfl
    | cons c cs =>
      have hc : c ∈ e := by
        rw [← List.mem_reverse, hr]; simp
      rw [List.dropWhile_cons_of_neg (by simp [h c hc])]
  rw [h2, List.reverse_reverse]

theorem pyStrip_cons_ws {c : Char} (hc : pyWs c = true) (e : List Char) :
    pyStrip (c :: e) = pyStrip e := by
  unfold pyStrip
  rw [List.dropWhile_cons_of_pos hc]

/-- A prefix of `a ++ c :: b` that avoids `c` is a prefix of `a`. -/
theorem prefix_split_absent {u a b : List Char} {c : Char}
    (hc : c ∉ u) (h : u <+: (a ++ c :: b)) : u <+: a := by
  by_cases hlen : u.length ≤ a.length
  · exact List.prefix_of_prefix_length_le h (List.prefix_append _ _) hlen
  · push_neg at hlen
    exfalso
    have hau : a <+: u :=
      List.prefix_of_prefix_length_le (List.prefix_append _ _) h (le_of_lt hlen)
    have heq : u = a ++ u.drop a.length := by
      conv_lhs => rw [← List.take_append_drop a.length u]
      rw [← List.prefix_iff_eq_take.mp hau]
    have hdrop : u.drop a.length <+: c :: b := by
      have h2 := h
      rw [heq] at h2
      exact (List.prefix_append_right_inj a).mp h2
    have hne : u.drop a.length ≠ [] := by
      intro hnil
      rw [List.drop_eq_nil_iff] at hnil
      omega
    cases hd : u.drop a.length with
    | nil => exact hne hd
    | cons d ds =>
      rw [hd, List.cons_prefix_cons] at hdrop
      refine hc ?_
      rw [← hdrop.1]
      exact List.mem_of_mem_drop (hd ▸ List.mem_cons_self d ds)

/-- An occurrence of a string avoiding a character cannot cross that
character: it lies on one side of it. -/
theorem infix_split_absent {c : Char} {a u b : List Char}
    (hc : c ∉ u) (h : u <:+: (a ++ c :: b)) : u <:+: a ∨ u <:+: b := by
  induction a with
  | nil =>
    simp only [List.nil_append] at h
    rw [List.infix_cons_iff] at h
    rcases h with h | h
    · cases u with
      | nil => exact Or.inl List.nil_infix
      | cons u0 us =>
        rw [List.cons_prefix_cons] at h
        refine absurd ?_ hc
        rw [h.1]
        simp
    · exact Or.inr h
  | cons a0 as ih =>
    rw [List.cons_append, List.infix_cons_iff] at h
    rcases h with h | h
    · have h2 : u <+: ((a0 :: as) ++ c :: b) := by simpa using h
      exact Or.inl (prefix_split_absent hc h2).isInfix
    · rcases ih h with hl | hr
      · exact Or.inl (List.infix_cons hl)
      · exact Or.inr hr

/-- The part of a `", "`-joined list left of a middle entry. -/
def joinL (sep : List Char) : List (List Char) → List Char
  | [] => []
  | es => joinSep sep es ++ sep

/-- The part of a `", "`-joined list right of a middle entry. -/
def joinR (sep : List Char) : List (List Char) → List Char
  | [] => []
  | es => sep ++ joinSep sep es

theorem joinSep_middle (sep m : List Char) :
    ∀ pre post, joinSep sep (pre ++ [m] ++ post) = joinL sep pre ++ m ++ joinR sep post := by
  have hpost : ∀ post, joinSep sep ([m] ++ post) = m ++ joinR sep post := by
    intro post
    cases post with
    | nil => simp [joinSep, joinR]
    | cons p ps => simp [joinSep_cons_cons, joinR, List.append_assoc]
  intro pre
  induction pre with
  | nil => intro post; simpa [joinL] using hpost post
  | cons e pre' ih =>
    intro post
    cases pre' with
    | nil =>
      rw [show ([e] ++ [m] ++ post) = e :: ([m] ++ post) by simp]
      cases hmp : [m] ++ post with
      | nil => simp at hmp
      | cons q qs =>
        rw [← hmp, show joinSep sep (e :: ([m] ++ post)) =
          e ++ sep ++ joinSep sep ([m] ++ post) by rw [hmp]; exact joinSep_cons_cons _ _ _ _]
        rw [hpost post]
        simp [joinL, joinSep, List.append_assoc]
    | cons e2 pre'' =>
      rw [show ((e :: e2 :: pre'') ++ [m] ++ post) = e :: ((e2 :: pre'') ++ [m] ++ post) by simp]
      rw [show joinSep sep (e :: ((e2 :: pre'') ++ [m] ++ post)) =
        e ++ sep ++ joinSep sep ((e2 :: pre'') ++ [m] ++ post) by
          rw [show ((e2 :: pre'') ++ [m] ++ post) = e2 :: (pre'' ++ [m] ++ post) by simp]
          exact joinSep_cons_cons _ _ _ _]
      rw [ih post]
      simp [joinL, joinSep_cons_cons, List.append_assoc]

theorem mem_joinSep {c : Char} {sep : List Char} :
    ∀ {es : List (List Char)}, c ∈ joinSep sep es → c ∈ sep ∨ ∃ e ∈ es, c ∈ e := by
  intro es
  induction es with
  | nil => intro h; simp [joinSep] at h
  | cons e rest ih =>
    intro h
    cases rest with
    | nil => exact Or.inr ⟨e, by simp, by simpa [joinSep] using h⟩
    | cons e2 rest' =>
      rw [joinSep_cons_cons] at h
      simp only [List.mem_append] at h
      rcases h with (h | h) | h
      · exact Or.inr ⟨e, by simp, h⟩
      · exact Or.inl h
      · rcases ih h with hs | ⟨x, hx, hcx⟩
        · exact Or.inl hs
        · exact Or.inr ⟨x, by simp at hx ⊢; tauto, hcx⟩

theorem te_not_infix_joinSep :
    ∀ {es : List (List Char)}, (∀ e ∈ es, ¬ teList <:+: e) →
      ¬ teList <:+: joinSep ", ".toList es := by
  intro es
  induction es with
  | nil =>
    intro _ h
    have := List.eq_nil_of_infix_nil h
    exact absurd this (by decide)
  | cons e rest ih =>
    intro hall h
    cases rest with
    | nil => exact hall e (by simp) (by simpa [joinSep] using h)
    | cons e2 rest' =>
      rw [joinSep_cons_cons] at h
      have hsh : e ++ ", ".toList ++ joinSep ", ".toList (e2 :: rest') =
          e ++ ',' :: (' ' :: joinSep ", ".toList (e2 :: rest')) := by simp
      rw [hsh] at h
      rcases infix_split_absent (by decide) h with h1 | h1
      · exact hall e (by simp) h1
      · have hsh2 : (' ' :: joinSep ", ".toList (e2 :: rest')) =
            [] ++ ' ' :: joinSep ", ".toList (e2 :: rest') := rfl
        rw [hsh2] at h1
        rcases infix_split_absent (by decide) h1 with h2 | h2
        · have := List.eq_nil_of_infix_nil h2
          exact absurd this (by decide)
        · exact ih (fun x hx => hall x (by simp at hx ⊢; tauto)) h2

theorem te_not_infix_joinL {pre : List (List Char)}
    (h : ∀ e ∈ pre, ¬ teList <:+: e) : ¬ teList <:+: joinL ", ".toList pre := by
  cases pre with
  | nil => intro hc; exact absurd (List.eq_nil_of_infix_nil hc) (by decide)
  | cons e pre' =>
    intro hc
    rw [show joinL ", ".toList (e :: pre') = joinSep ", ".toList (e :: pre') ++ ", ".toList
      from rfl] at hc
    rw [show joinSep ", ".toList (e :: pre') ++ ", ".toList =
      joinSep ", ".toList (e :: pre') ++ ',' :: [' '] by simp] at hc
    rcases infix_split_absent (by decide) hc with h1 | h1
    · exact te_not_infix_joinSep h h1
    · have hle := h1.length_le
      have h9 : teList.length = 9 := rfl
      simp at hle
      omega

/-- A match that consumes the whole input makes the substitution output
exactly the replacement. -/
theorem subAll_total_match {tryRule : List Char → Option (List Char × Nat)}
    {s rep : List Char} {k : Nat}
    (h : tryRule s = some (rep, k)) (hl : s.length = k + 1) :
    subAll tryRule s = rep := by
  cases s with
  | nil => simp at hl
  | cons c cs =>
    rw [subAll_cons, h]
    simp only []
    have hcs : cs.length = k := by simpa using hl
    rw [List.drop_eq_nil_of_le (by omega), subAll_nil, List.append_nil]

/-- A well-formed import entry: nonempty, free of commas, braces and
whitespace, and not containing `ToolError` as a substring. -/
def entryOk (e : List Char) : Prop :=
  e ≠ [] ∧ (∀ c ∈ e, c ≠ ',' ∧ c ≠ '\x7d' ∧ pyWs c = false) ∧ ¬ teList <:+: e

instance (e : List Char) : Decidable (entryOk e) := by
  unfold entryOk
  infer_instance

theorem pyStrip_map_decorated {l : List (List Char)}
    (h : ∀ x ∈ l, ∀ c ∈ x, pyWs c = false) :
    (l.map (fun x => ' ' :: x)).map pyStrip = l := by
  induction l with
  | nil => rfl
  | cons x xs ih =>
    simp only [List.map_cons, List.map_map]
    rw [show pyStrip (' ' :: x) = x by
      rw [pyStrip_cons_ws (by decide), pyStrip_eq_self (h x (by simp))]]
    have ihx := ih (fun y hy => h y (by simp [hy]))
    simp only [List.map_map] at ihx
    rw [ihx]

theorem mem_middle_cases {e : List Char} {m : List Char} {pre post : List (List Char)}
    (he : e ∈ pre ++ [m] ++ post) : e ∈ pre ∨ e = m ∨ e ∈ post := by
  simp only [List.append_assoc, List.mem_append, List.mem_cons, List.not_mem_nil,
    or_false] at he
  exact he

/-- Computation of `useImports` on the two halves of a well-formed joined
list of imports from which the `ToolError` entry has been cut out. -/
theorem useImports_wellformed (pre post : List (List Char))
    (hpre : ∀ e ∈ pre, entryOk e) (hpost : ∀ e ∈ post, entryOk e) :
    useImports (joinL ", ".toList pre) (joinR ", ".toList post) = pre ++ post := by
  have hjoin : joinL ", ".toList pre ++ joinR ", ".toList post =
      joinSep ", ".toList (pre ++ [[]] ++ post) := by
    rw [joinSep_middle]
    simp
  have hwf : ∀ e ∈ pre ++ [[]] ++ post, ∀ c ∈ e,
      c ≠ ',' ∧ pyWs c = false := by
    intro e he c hc
    rcases mem_middle_cases he with he | he | he
    · exact ⟨((hpre e he).2.1 c hc).1, ((hpre e he).2.1 c hc).2.2⟩
    · subst he; simp at hc
    · exact ⟨((hpost e he).2.1 c hc).1, ((hpost e he).2.1 c hc).2.2⟩
  unfold useImports
  rw [hjoin]
  cases hshape : pre ++ [[]] ++ post with
  | nil => simp at hshape
  | cons e0 rest =>
    rw [splitOnChar_joinSep e0 rest
      (by rw [← hshape]; exact fun x hx c hc => (hwf x hx c hc).1)]
    have hstrip0 : pyStrip e0 = e0 := by
      apply pyStrip_eq_self
      intro c hc
      exact (hwf e0 (by rw [hshape]; simp) c hc).2
    have hstriprest : (rest.map (fun x => ' ' :: x)).map pyStrip = rest := by
      apply pyStrip_map_decorated
      intro x hx c hc
      exact (hwf x (by rw [hshape]; simp [hx]) c hc).2
    simp only [List.map_cons, hstrip0]
    rw [hstriprest]
    rw [← hshape]
    have hfilter : ∀ (l : List (List Char)), (∀ e ∈ l, entryOk e) →
        l.filter (fun x => !x.isEmpty && !(x == teList)) = l := by
      intro l hl
      induction l with
      | nil => rfl
      | cons x xs ihx =>
        have hx := hl x (by simp)
        have hxe : x.isEmpty = false := by
          cases x with
          | nil => exact absurd rfl hx.1
          | cons _ _ => rfl
        have hxt : (x == teList) = false := by
          rw [beq_eq_false_iff_ne]
          intro hxeq
          exact hx.2.2 (hxeq ▸ List.infix_refl x)
        rw [List.filter_cons_of_pos (by rw [hxe, hxt]; rfl)]
        rw [ihx (fun y hy => hl y (by simp [hy]))]
    rw [show pre ++ [[]] ++ post = pre ++ ([] :: post) by simp]
    rw [List.filter_append, hfilter pre hpre]
    rw [List.filter_cons_of_neg (by decide)]
    rw [hfilter post hpost]

theorem braceFree_te : ∀ c ∈ teList, braceFree c = true := by decide

theorem braceFree_sep : ∀ c ∈ ", ".toList, braceFree c = true := by decide

/-- `tryUse` after consuming its leading literal. -/
theorem tryUse_prefix_step (prefixLit X : List Char) :
    tryUse prefixLit (prefixLit ++ X) =
      match dropLit "\x7d;".toList (X.drop (X.takeWhile braceFree).length) with
      | none => none
      | some _ =>
        match splitFirstTE (X.takeWhile braceFree) with
        | none => none
        | some (g1, g2) =>
          if (useImports g1 g2).isEmpty then
            some ([], prefixLit.length + (X.takeWhile braceFree).length + 1)
          else
            some (prefixLit ++ joinSep ", ".toList (useImports g1 g2) ++ "\x7d;".toList,
              prefixLit.length + (X.takeWhile braceFree).length + 1) := by
  unfold tryUse
  rw [dropLit_append]

/-- The use-statement rewrite on a well-formed statement: the match covers
the whole statement and the replacement keeps exactly the non-`ToolError`
entries. -/
theorem tryUse_wellformed (prefixLit : List Char) (pre post : List (List Char))
    (hpre : ∀ e ∈ pre, entryOk e) (hpost : ∀ e ∈ post, entryOk e) :
    tryUse prefixLit
        (prefixLit ++ (joinSep ", ".toList (pre ++ [teList] ++ post) ++ "\x7d;".toList)) =
      some (if (pre ++ post).isEmpty then []
          else prefixLit ++ joinSep ", ".toList (pre ++ post) ++ "\x7d;".toList,
        prefixLit.length + (joinSep ", ".toList (pre ++ [teList] ++ post)).length + 1) := by
  have hB : ∀ c ∈ joinSep ", ".toList (pre ++ [teList] ++ post), braceFree c = true := by
    intro c hc
    rcases mem_joinSep hc with hs | ⟨e, he, hce⟩
    · exact braceFree_sep c hs
    · rcases mem_middle_cases he with he | he | he
      · simp [braceFree, ((hpre e he).2.1 c hce).2.1]
      · subst he; exact braceFree_te c hce
      · simp [braceFree, ((hpost e he).2.1 c hce).2.1]
  have htw : (joinSep ", ".toList (pre ++ [teList] ++ post) ++ "\x7d;".toList).takeWhile
      braceFree = joinSep ", ".toList (pre ++ [teList] ++ post) := by
    rw [show ("\x7d;".toList : List Char) = '\x7d' :: [';'] from rfl,
      List.takeWhile_append_of_pos hB,
      List.takeWhile_cons_of_neg (by decide), List.append_nil]
  have hdl2 : dropLit ("\x7d;".toList) ("\x7d;".toList) = some [] := by
    have := dropLit_append ("\x7d;".toList) []
    rwa [List.append_nil] at this
  have hsplitB : splitFirstTE (joinSep ", ".toList (pre ++ [teList] ++ post)) =
      some (joinL ", ".toList pre, joinR ", ".toList post) := by
    rw [show joinSep ", ".toList (pre ++ [teList] ++ post) =
        joinL ", ".toList pre ++ (teList ++ joinR ", ".toList post) by
      rw [joinSep_middle]; simp]
    exact splitFirstTE_exact (te_not_infix_joinL (fun e he => (hpre e he).2.2))
  have huse := useImports_wellformed pre post hpre hpost
  rw [tryUse_prefix_step]
  rw [htw, List.drop_left, hdl2]
  simp only [hsplitB, huse]
  by_cases hemp : (pre ++ post).isEmpty
  · rw [if_pos hemp, if_pos hemp]
  · rw [if_neg (by simpa using hemp), if_neg (by simpa using hemp)]

/-- C10 (amended): on a use statement whose brace list consists of
comma-`", "`-separated entries, each nonempty, whitespace-, comma- and
brace-free and not containing `ToolError` as a substring, plus one exact
`ToolError` entry, the rewrite removes exactly the `ToolError` entry,
preserves the other entries in order, and yields the empty string when
`ToolError` was the only entry.  (Entries merely containing `ToolError` as
a substring are spliced instead, as the counterexample shows.) -/
theorem C10_amended_use_rewrite (prefixLit : List Char) (pre post : List (List Char))
    (hpre : ∀ e ∈ pre, entryOk e) (hpost : ∀ e ∈ post, entryOk e) :
    subAll (tryUse prefixLit)
        (prefixLit ++ (joinSep ", ".toList (pre ++ [teList] ++ post) ++ "\x7d;".toList)) =
      if (pre ++ post).isEmpty then []
      else prefixLit ++ joinSep ", ".toList (pre ++ post) ++ "\x7d;".toList := by
  apply subAll_total_match (tryUse_wellformed prefixLit pre post hpre hpost)
  simp
  omega

/-! ### Occurrence positions

Toolkit for reasoning about where a fixed string can sit inside a match
region of one of the substitution rules. -/

/-- `u` occurs in `s` starting at position `p`. -/
def occursAt (u s : List Char) (p : Nat) : Prop :=
  ∃ pre post, pre.length = p ∧ s = pre ++ u ++ post

theorem infix_iff_occursAt {u s : List Char} :
    u <:+: s ↔ ∃ p, occursAt u s p := by
  constructor
  · rintro ⟨pre, post, h⟩
    exact ⟨pre.length, pre, post, rfl, h.symm⟩
  · rintro ⟨p, pre, post, _, h⟩
    exact ⟨pre, post, h.symm⟩

theorem occursAt.infix {u s : List Char} {p : Nat} (h : occursAt u s p) : u <:+: s :=
  infix_iff_occursAt.mpr ⟨p, h⟩

theorem occursAt_nil {u : List Char} {p : Nat} (h : occursAt u [] p) : u = [] := by
  obtain ⟨pre, post, _, he⟩ := h
  have := congrArg List.length he
  simp at this
  exact List.eq_nil_of_length_eq_zero (by omega)

theorem occursAt_cons_pos {u : List Char} {c : Char} {cs : List Char} {p : Nat}
    (h : occursAt u (c :: cs) p) (hp : 0 < p) : occursAt u cs (p - 1) := by
  obtain ⟨pre, post, hl, he⟩ := h
  cases pre with
  | nil => simp at hl; omega
  | cons a pre' =>
    simp only [List.cons_append, List.cons.injEq] at he
    exact ⟨pre', post, by simp at hl; omega, he.2⟩

theorem occursAt_zero_iff {u s : List Char} : occursAt u s 0 ↔ u <+: s := by
  constructor
  · rintro ⟨pre, post, hl, he⟩
    rw [List.length_eq_zero] at hl
    subst hl
    exact ⟨post, by simpa using he.symm⟩
  · rintro ⟨t, ht⟩
    exact ⟨[], t, rfl, by simpa using ht.symm⟩

/-- Decompose an occurrence inside an append: wholly left, wholly right, or
straddling the junction. -/
theorem occursAt_append_cases {u x y : List Char} {p : Nat}
    (h : occursAt u (x ++ y) p) :
    occursAt u x p ∨ (x.length ≤ p ∧ occursAt u y (p - x.length)) ∨
    (∃ u1 u2, u = u1 ++ u2 ∧ u1 ≠ [] ∧ u2 ≠ [] ∧ u1 <:+ x ∧ u2 <+: y ∧
      p + u1.length = x.length) := by
  obtain ⟨pre, post, hl, he⟩ := h
  have he' : pre ++ (u ++ post) = x ++ y := by simpa [List.append_assoc] using he.symm
  rw [List.append_eq_append_iff] at he'
  rcases he' with ⟨a', hx, hupost⟩ | ⟨c', hpre, hy⟩
  · rw [List.append_eq_append_iff] at hupost
    rcases hupost with ⟨b', ha', hpost⟩ | ⟨u2, hu, hy2⟩
    · -- u fits inside x
      left
      exact ⟨pre, b', hl, by rw [hx, ha']; simp⟩
    · -- u = a' ++ u2 straddles (or degenerates)
      cases ha : a' with
      | nil =>
        right; left
        subst ha
        simp only [List.append_nil] at hx
        simp only [List.nil_append] at hu
        refine ⟨by rw [hx, hl], ?_⟩
        exact ⟨[], post, by simp [hx, hl], by rw [hy2, hu]; simp⟩
      | cons a0 as =>
        cases hu2 : u2 with
        | nil =>
          left
          subst hu2
          simp only [List.append_nil] at hu
          exact ⟨pre, [], hl, by rw [hx, hu]; simp⟩
        | cons b0 bs =>
          right; right
          refine ⟨a', u2, hu, by rw [ha]; simp, by rw [hu2]; simp, ⟨pre, hx.symm⟩,
            ⟨post, by rw [hy2]⟩, ?_⟩
          have := congrArg List.length hx
          simp at this
          omega
  · right; left
    constructor
    · rw [hpre] at hl
      simp at hl
      omega
    · refine ⟨c', post, ?_, by rw [hy]; simp⟩
      rw [hpre] at hl
      simp at hl
      omega

theorem suffix_last_mem {u x0 : List Char} {c : Char} (hu : u ≠ [])
    (h : u <:+ (x0 ++ [c])) : c ∈ u := by
  have h' : u.reverse <+: (x0 ++ [c]).reverse := by
    rw [ List.reverse_prefix]
    exact h
  rw [List.reverse_append] at h'
  simp only [List.reverse_cons, List.reverse_nil, List.nil_append] at h'
  cases hur : u.reverse with
  | nil => exact absurd (by simpa using congrArg List.reverse hur) hu
  | cons d ds =>
    rw [hur] at h'
    simp only [List.singleton_append] at h'
    rw [List.cons_prefix_cons] at h'
    rw [← List.mem_reverse, hur, h'.1]
    simp

theorem prefix_head_mem {u y : List Char} {c : Char} (hu : u ≠ [])
    (h : u <+: (c :: y)) : c ∈ u := by
  cases u with
  | nil => exact absurd rfl hu
  | cons d ds =>
    rw [List.cons_prefix_cons] at h
    rw [h.1]
    simp

theorem mem_take_mono {c : Char} {l : List Char} {i j : Nat} (hij : i ≤ j)
    (h : c ∈ l.take i) : c ∈ l.take j := by
  have : l.take i = (l.take j).take i := by
    rw [List.take_take, Nat.min_eq_left hij]
  rw [this] at h
  exact List.take_subset _ _ h

theorem take_of_append_eq {u1 u2 : List Char} {u : List Char} (h : u = u1 ++ u2) :
    u1 = u.take u1.length := by
  rw [h, List.take_left]

theorem drop_of_append_eq {u1 u2 : List Char} {u : List Char} (h : u = u1 ++ u2) :
    u2 = u.drop u1.length := by
  rw [h, List.drop_left]

/-- If no rule match starts in the first `n` positions, those characters
are copied verbatim by the substitution. -/
theorem subAll_copy {tryRule : List Char → Option (List Char × Nat)} :
    ∀ (n : Nat) (s : List Char), (∀ j < n, tryRule (s.drop j) = none) →
      subAll tryRule s = s.take n ++ subAll tryRule (s.drop n) := by
  intro n
  induction n with
  | zero => intro s _; simp
  | succ m ih =>
    intro s h
    cases s with
    | nil => simp [subAll_nil]
    | cons c cs =>
      have h0 : tryRule (c :: cs) = none := by simpa using h 0 (by omega)
      rw [subAll_cons, h0]
      simp only []
      rw [ih cs (fun j hj => by simpa using h (j + 1) (by omega))]
      simp

/-- Carrying an occurrence of `U` through one substitution pass, turning it
into an occurrence of `V` in the output (`V = U` for the preserving rules;
`V` is the replacement text for the producing rule):

* no match may start strictly inside an occurrence of `U`,
* a match overlapping the start of an occurrence of `U` must put `V` into
  its replacement, and
* if the scanner fails on an occurrence of `U`, then `U` itself must
  already contain `V`. -/
theorem subAll_carry {tryRule : List Char → Option (List Char × Nat)}
    {U V : List Char} (hU : U ≠ [])
    (Hin : ∀ s j, 0 < j → j < U.length → U <+: s → tryRule (s.drop j) = none)
    (Hov : ∀ s rep k p, tryRule s = some (rep, k) → occursAt U s p → p ≤ k → V <:+: rep)
    (Hnone : ∀ s, U <+: s → tryRule s = none → V <:+: U) :
    ∀ (n : Nat) (s : List Char) (p : Nat), s.length ≤ n → occursAt U s p →
      V <:+: subAll tryRule s := by
  intro n
  induction n with
  | zero =>
    intro s p hlen ho
    cases s with
    | nil => exact absurd (occursAt_nil ho) hU
    | cons c cs => simp at hlen
  | succ m ih =>
    intro s p hlen ho
    cases s with
    | nil => exact absurd (occursAt_nil ho) hU
    | cons c cs =>
      cases htry : tryRule (c :: cs) with
      | some rk =>
        obtain ⟨rep, k⟩ := rk
        rw [subAll_cons, htry]
        simp only []
        by_cases hp : p ≤ k
        · exact (Hov _ _ _ _ htry ho hp).trans (List.prefix_append _ _).isInfix
        · push_neg at hp
          have ho1 : occursAt U cs (p - 1) := occursAt_cons_pos ho (by omega)
          have ho2 : occursAt U (cs.drop k) (p - 1 - k) := by
            obtain ⟨pre, post, hl, he⟩ := ho1
            refine ⟨pre.drop k, post, ?_, ?_⟩
            · simp [hl]
            · rw [he, List.append_assoc, List.drop_append_of_le_length (by omega),
                ← List.append_assoc]
          have hle : (cs.drop k).length ≤ m := by
            simp only [List.length_cons] at hlen
            simp only [List.length_drop]
            omega
          exact ((ih _ _ hle ho2).trans (List.suffix_append _ _).isInfix)
      | none =>
        by_cases hp : p = 0
        · subst hp
          have hpre : U <+: (c :: cs) := occursAt_zero_iff.mp ho
          have hcopy : subAll tryRule (c :: cs) =
              (c :: cs).take U.length ++ subAll tryRule ((c :: cs).drop U.length) := by
            apply subAll_copy
            intro j hj
            cases hj0 : j with
            | zero => simpa using htry
            | succ j' => exact Hin (c :: cs) (j' + 1) (by omega) (by omega) hpre
          rw [hcopy, ← List.prefix_iff_eq_take.mp hpre]
          exact (Hnone _ hpre htry).trans (List.prefix_append _ _).isInfix
        · rw [subAll_cons, htry]
          simp only []
          have ho2 : occursAt U cs (p - 1) := occursAt_cons_pos ho (by omega)
          refine List.infix_cons (ih cs (p - 1) ?_ ho2)
          simp only [List.length_cons] at hlen
          omega

/-- Entry point for `subAll_carry` from an infix occurrence. -/
theorem subAll_carry_infix {tryRule : List Char → Option (List Char × Nat)}
    {U V : List Char} (hU : U ≠ [])
    (Hin : ∀ s j, 0 < j → j < U.length → U <+: s → tryRule (s.drop j) = none)
    (Hov : ∀ s rep k p, tryRule s = some (rep, k) → occursAt U s p → p ≤ k → V <:+: rep)
    (Hnone : ∀ s, U <+: s → tryRule s = none → V <:+: U)
    {s : List Char} (h : U <:+: s) : V <:+: subAll tryRule s := by
  obtain ⟨p, hp⟩ := infix_iff_occursAt.mp h
  exact subAll_carry hU Hin Hov Hnone s.length s p (le_refl _) hp

/-! ### Full inversion of the scanner matches -/

theorem takeWhile_split (p : Char → Bool) (l : List Char) :
    l = l.takeWhile p ++ l.drop (l.takeWhile p).length := by
  rw [drop_takeWhile_length]
  exact (List.takeWhile_append_dropWhile p l).symm

theorem parseResultGroup_inv {r g r2 : List Char}
    (h : parseResultGroup r = some (g, r2)) : r = g ++ r2 ∧ g ≠ [] := by
  simp only [parseResultGroup] at h
  split at h
  · exact absurd h (by simp)
  · rename_i hane
    split at h
    · split at h
      · rename_i r2t heq1 x r3 heq2
        simp only [Option.some.injEq, Prod.mk.injEq] at h
        obtain ⟨hg, hr2⟩ := h
        constructor
        · rw [← hg, ← hr2]
          conv_lhs => rw [takeWhile_split notCLtGt r, heq1]
          conv_lhs => rw [takeWhile_split notLtGt r2t, heq2]
          conv_lhs => rw [takeWhile_split notCLtGt r3]
          simp
        · intro hgg
          rw [← hg] at hgg
          exact hane (by simpa using congrArg (List.take (r.takeWhile notCLtGt).length) hgg)
      · exact absurd h (by simp)
    · simp only [Option.some.injEq, Prod.mk.injEq] at h
      obtain ⟨hg, hr2⟩ := h
      refine ⟨?_, by rw [← hg]; exact hane⟩
      rw [← hg, ← hr2]
      exact takeWhile_split notCLtGt r

theorem tryResult1_inv {s rep : List Char} {k : Nat}
    (h : tryResult1 s = some (rep, k)) :
    ∃ g w rest, s = "Result<".toList ++ (g ++ ([','] ++ (w ++ ("ToolError>".toList ++ rest)))) ∧
      rep = "Result<".toList ++ g ++ ", ErrorData>".toList ∧
      k = 17 + g.length + w.length ∧ g ≠ [] ∧ (∀ c ∈ w, pyWs c = true) := by
  unfold tryResult1 at h
  split at h
  · exact absurd h (by simp)
  · rename_i rr h1
    split at h
    · exact absurd h (by simp)
    · rename_i gr g r2 h2
      split at h
      · rename_i r3
        split at h
        · exact absurd h (by simp)
        · rename_i rest h3
          simp only [Option.some.injEq, Prod.mk.injEq] at h
          obtain ⟨hrep, hk⟩ := h
          obtain ⟨hr_eq, hg_ne⟩ := parseResultGroup_inv h2
          refine ⟨g, r3.takeWhile pyWs, rest, ?_, hrep.symm, hk.symm, hg_ne,
            fun c hc => List.mem_takeWhile_imp hc⟩
          rw [dropLit_eq_some h1, hr_eq]
          have hr3 : r3 = r3.takeWhile pyWs ++ ("ToolError>".toList ++ rest) := by
            conv_lhs => rw [takeWhile_split pyWs r3]
            rw [dropLit_eq_some h3]
          conv_lhs => rw [hr3]
          simp
      · exact absurd h (by simp)

theorem tryResult2_inv {s rep : List Char} {k : Nat}
    (h : tryResult2 s = some (rep, k)) :
    ∃ rest, s = "-> Result<Vec<Content>, ToolError>".toList ++ rest ∧
      rep = "-> Result<Vec<Content>, ErrorData>".toList ∧ k = 33 := by
  unfold tryResult2 at h
  split at h
  · exact absurd h (by simp)
  · rename_i rest h1
    simp only [Option.some.injEq, Prod.mk.injEq] at h
    exact ⟨rest, dropLit_eq_some h1, h.1.symm, h.2.symm⟩

theorem tryResult3_inv {s rep : List Char} {k : Nat}
    (h : tryResult3 s = some (rep, k)) :
    ∃ g rest, s = "-> Result<".toList ++ (g ++ (", ToolError>".toList ++ rest)) ∧
      rep = "-> Result<".toList ++ g ++ ", ErrorData>".toList ∧
      k = 21 + g.length ∧ g ≠ [] := by
  unfold tryResult3 at h
  split at h
  · exact absurd h (by simp)
  · rename_i rr h1
    split at h
    · exact absurd h (by simp)
    · rename_i gr g r2 h2
      split at h
      · exact absurd h (by simp)
      · rename_i rest h3
        simp only [Option.some.injEq, Prod.mk.injEq] at h
        obtain ⟨hrep, hk⟩ := h
        obtain ⟨hr_eq, hg_ne⟩ := parseResultGroup_inv h2
        refine ⟨g, rest, ?_, hrep.symm, hk.symm, hg_ne⟩
        rw [dropLit_eq_some h1, hr_eq, dropLit_eq_some h3]

theorem tryCtor_inv {name code s rep : List Char} {k : Nat}
    (h : tryCtor name code s = some (rep, k)) :
    ∃ arg rest,
      s = (teList ++ "::".toList ++ name ++ ['(']) ++ (arg ++ (')' :: rest)) ∧
      rep = "ErrorData::new(ErrorCode::".toList ++ code ++ ", ".toList ++ arg ++
        ", None)".toList ∧
      k = (teList ++ "::".toList ++ name ++ ['(']).length + arg.length ∧
      arg ≠ [] ∧ (∀ c ∈ arg, ctorArgChar c = true) := by
  unfold tryCtor at h
  split at h
  · exact absurd h (by simp)
  · rename_i rr h1
    split at h
    · exact absurd h (by simp)
    · rename_i hane
      split at h
      · rename_i rest heq
        simp only [Option.some.injEq, Prod.mk.injEq] at h
        obtain ⟨hrep, hk⟩ := h
        refine ⟨rr.takeWhile ctorArgChar, rest, ?_, hrep.symm, hk.symm, hane,
          fun c hc => List.mem_takeWhile_imp hc⟩
        rw [dropLit_eq_some h1]
        conv_lhs => rw [takeWhile_split ctorArgChar rr, heq]
      · exact absurd h (by simp)

theorem tryFmt_inv {name code s rep : List Char} {k : Nat}
    (h : tryFmt name code s = some (rep, k)) :
    ∃ arg rest,
      s = (teList ++ "::".toList ++ name ++ "(format!(".toList) ++
        (arg ++ (')' :: (')' :: rest))) ∧
      rep = "ErrorData::new(ErrorCode::".toList ++ code ++ ", format!(".toList ++ arg ++
        "), None)".toList ∧
      k = (teList ++ "::".toList ++ name ++ "(format!(".toList).length + arg.length + 1 ∧
      arg ≠ [] ∧ (∀ c ∈ arg, fmtArgChar c = true) := by
  unfold tryFmt at h
  split at h
  · exact absurd h (by simp)
  · rename_i rr h1
    split at h
    · exact absurd h (by simp)
    · rename_i hane
      split at h
      · rename_i rest heq
        simp only [Option.some.injEq, Prod.mk.injEq] at h
        obtain ⟨hrep, hk⟩ := h
        refine ⟨rr.takeWhile fmtArgChar, rest, ?_, hrep.symm, hk.symm, hane,
          fun c hc => List.mem_takeWhile_imp hc⟩
        rw [dropLit_eq_some h1]
        conv_lhs => rw [takeWhile_split fmtArgChar rr, heq]
      · exact absurd h (by simp)

theorem C10_amended_use_rewrite_witness :
    (∀ e ∈ [("Tool".toList : List Char)], entryOk e) ∧
    (∀ e ∈ [("Content".toList : List Char)], entryOk e) ∧
    subAll (tryUse ("use mcp_core::\x7b".toList))
        ("use mcp_core::\x7b".toList ++
          (joinSep ", ".toList (["Tool".toList] ++ [teList] ++ ["Content".toList]) ++
            "\x7d;".toList)) =
      "use mcp_core::\x7b".toList ++ joinSep ", ".toList
        [("Tool".toList : List Char), "Content".toList] ++ "\x7d;".toList :=
  ⟨by decide, by decide, by
    rw [C10_amended_use_rewrite ("use mcp_core::\x7b".toList)
      ["Tool".toList] ["Content".toList] (by decide) (by decide)]
    rfl⟩

/-! ### Tracked strings for the C3 analysis

`strO` is the constructor call of the claim, `strT` the advertised
replacement, `strW`/`strW2` the two `use`-statement prefixes whose absence
keeps the import-cleanup rules inert. -/

def strO : List Char := "ToolError::NotFound(\"x\")".toList
def strT : List Char := "ErrorData::new(ErrorCode::INVALID_REQUEST, \"x\", None)".toList
def strW : List Char := "use mcp_core::\x7b".toList
def strW2 : List Char := "use mcp_core::handler::\x7b".toList

/-! ### More occurrence helpers -/

theorem prefix_head_eq {u : List Char} {c : Char} {l : List Char}
    (h : u <+: (c :: l)) (hu : u ≠ []) : u.head? = some c := by
  cases u with
  | nil => exact absurd rfl hu
  | cons d ds => rw [List.cons_prefix_cons] at h; rw [h.1]; rfl

theorem occursAt_length {u s : List Char} {p : Nat} (h : occursAt u s p) :
    p + u.length ≤ s.length := by
  obtain ⟨pre, post, hl, he⟩ := h
  have := congrArg List.length he
  simp at this
  omega

theorem dropLit_none_of_no_lit {lit s : List Char} (h : ¬ lit <+: s) :
    dropLit lit s = none := by
  cases hd : dropLit lit s with
  | none => rfl
  | some r => exact absurd ⟨r, (dropLit_eq_some hd).symm⟩ h

theorem prefix_drop {U s : List Char} (j : Nat) (hj : j ≤ U.length)
    (h : U <+: s) : U.drop j <+: s.drop j := by
  obtain ⟨t, rfl⟩ := h
  rw [List.drop_append_of_le_length hj]
  exact ⟨t, rfl⟩

theorem take_not_suffix_last {W y : List Char} {c : Char} (hc : c ∉ W) {i : Nat}
    (hi : 0 < i) (hiW : i < W.length) (h : W.take i <:+ (y ++ [c])) : False := by
  have hne : W.take i ≠ [] := by
    have : (W.take i).length = i := by
      rw [List.length_take]
      omega
    intro hnil
    rw [hnil] at this
    simp at this
    omega
  exact hc (List.take_subset _ _ (suffix_last_mem hne h))

/-! ### Scanners fail without their leading literal -/

theorem tryResult1_none {s : List Char} (h : ¬ "Result<".toList <+: s) :
    tryResult1 s = none := by
  unfold tryResult1
  rw [dropLit_none_of_no_lit h]

theorem tryResult2_none {s : List Char}
    (h : ¬ "-> Result<Vec<Content>, ToolError>".toList <+: s) :
    tryResult2 s = none := by
  unfold tryResult2
  rw [dropLit_none_of_no_lit h]

theorem tryResult3_none {s : List Char} (h : ¬ "-> Result<".toList <+: s) :
    tryResult3 s = none := by
  unfold tryResult3
  rw [dropLit_none_of_no_lit h]

theorem tryCtor_none {name code s : List Char}
    (h : ¬ (teList ++ "::".toList ++ name ++ ['(']) <+: s) :
    tryCtor name code s = none := by
  unfold tryCtor
  rw [dropLit_none_of_no_lit h]

theorem tryFmt_none {name code s : List Char}
    (h : ¬ (teList ++ "::".toList ++ name ++ "(format!(".toList) <+: s) :
    tryFmt name code s = none := by
  unfold tryFmt
  rw [dropLit_none_of_no_lit h]

theorem tryUse_none {prefixLit s : List Char} (h : ¬ prefixLit <+: s) :
    tryUse prefixLit s = none := by
  unfold tryUse
  rw [dropLit_none_of_no_lit h]

/-- A scanner whose pattern starts with the literal `L` cannot match
strictly inside an occurrence of `U` when no suffix of `U` is
prefix-compatible with `L`. -/
theorem hin_of_firstLit {tryRule : List Char → Option (List Char × Nat)}
    {L U : List Char}
    (hnone : ∀ s, ¬ L <+: s → tryRule s = none)
    (hdis : ∀ j < U.length, 0 < j → ¬ (L <+: U.drop j) ∧ ¬ (U.drop j <+: L)) :
    ∀ s j, 0 < j → j < U.length → U <+: s → tryRule (s.drop j) = none := by
  intro s j hj0 hjU hUs
  apply hnone
  intro hL
  have hds : U.drop j <+: s.drop j := prefix_drop j (by omega) hUs
  rcases List.prefix_or_prefix_of_prefix hL hds with h | h
  · exact (hdis j hjU hj0).1 h
  · exact (hdis j hjU hj0).2 h

/-! ### No rule creates a fresh occurrence of a `use`-statement prefix -/

/-- Prefix reflection: when every replacement starts with a character
foreign to `W`, a suffix of `W` that prefixes the substituted output
already prefixes the input. -/
theorem prefix_reflect {tryRule : List Char → Option (List Char × Nat)}
    {W : List Char}
    (Hhead : ∀ s rep k, tryRule s = some (rep, k) →
      ∃ h0, rep.head? = some h0 ∧ h0 ∉ W) :
    ∀ (n : Nat) (s : List Char) (i : Nat), s.length ≤ n → i < W.length →
      W.drop i <+: subAll tryRule s → W.drop i <+: s := by
  intro n
  induction n with
  | zero =>
    intro s i hlen hi h
    cases s with
    | nil =>
      rw [subAll_nil] at h
      have : W.drop i = [] := List.prefix_nil.mp h
      have : (W.drop i).length = 0 := by rw [this]; rfl
      simp at this
      omega
    | cons c cs => simp at hlen
  | succ m ih =>
    intro s i hlen hi h
    cases s with
    | nil =>
      rw [subAll_nil] at h
      have : W.drop i = [] := List.prefix_nil.mp h
      have : (W.drop i).length = 0 := by rw [this]; rfl
      simp at this
      omega
    | cons c cs =>
      cases htry : tryRule (c :: cs) with
      | some rk =>
        obtain ⟨rep, k⟩ := rk
        rw [subAll_cons, htry] at h
        simp only [] at h
        obtain ⟨h0, hh0, hh0W⟩ := Hhead _ _ _ htry
        have hWd : (W.drop i).head? = some h0 := by
          have hne : W.drop i ≠ [] := by
            intro hnil
            have : (W.drop i).length = 0 := by rw [hnil]; rfl
            simp at this
            omega
          cases hrep : rep with
          | nil => rw [hrep] at hh0; simp at hh0
          | cons r0 rs =>
            rw [hrep] at hh0
            simp at hh0
            rw [hrep] at h
            simp only [List.cons_append] at h
            rw [prefix_head_eq h hne, hh0]
        have : h0 ∈ W := by
          have hmem : h0 ∈ W.drop i := by
            cases hd : W.drop i with
            | nil => rw [hd] at hWd; simp at hWd
            | cons d ds =>
              rw [hd] at hWd
              simp at hWd
              simp [hWd]
          exact List.drop_subset _ _ hmem
        exact absurd this hh0W
      | none =>
        rw [subAll_cons, htry] at h
        simp only [] at h
        have hWd : W.drop i = W[i] :: W.drop (i + 1) := List.drop_eq_getElem_cons hi
        rw [hWd] at h
        rw [List.cons_prefix_cons] at h
        obtain ⟨hc, htail⟩ := h
        rw [hWd, hc, List.cons_prefix_cons]
        refine ⟨rfl, ?_⟩
        by_cases hi1 : i + 1 < W.length
        · exact ih cs (i + 1) (by simpa using hlen) hi1 htail
        · have : W.drop (i + 1) = [] := List.drop_eq_nil_of_le (by omega)
          rw [this]
          exact List.nil_prefix

/-- If no replacement contains `W`, can end in a nonempty proper prefix of
`W`, or starts with a character of `W`, then a pass of the substitution
cannot create an occurrence of `W`. -/
theorem no_create {tryRule : List Char → Option (List Char × Nat)}
    {W : List Char} (hW : W ≠ [])
    (Hhead : ∀ s rep k, tryRule s = some (rep, k) →
      ∃ h0, rep.head? = some h0 ∧ h0 ∉ W)
    (Hrep : ∀ s rep k, tryRule s = some (rep, k) → ¬ W <:+: s → ¬ W <:+: rep)
    (Hstr : ∀ s rep k, tryRule s = some (rep, k) →
      ∀ i, 0 < i → i < W.length → ¬ (W.take i <:+ rep)) :
    ∀ (n : Nat) (s : List Char), s.length ≤ n → ¬ W <:+: s →
      ¬ W <:+: subAll tryRule s := by
  intro n
  induction n with
  | zero =>
    intro s hlen hs
    cases s with
    | nil => rw [subAll_nil]; exact hs
    | cons c cs => simp at hlen
  | succ m ih =>
    intro s hlen hs
    cases s with
    | nil => rw [subAll_nil]; exact hs
    | cons c cs =>
      have hcs : ¬ W <:+: cs := fun hx => hs (hx.trans (List.suffix_cons c cs).isInfix)
      cases htry : tryRule (c :: cs) with
      | some rk =>
        obtain ⟨rep, k⟩ := rk
        rw [subAll_cons, htry]
        simp only []
        intro hbad
        have hdrop : ¬ W <:+: cs.drop k :=
          fun hx => hcs (hx.trans (List.drop_suffix k cs).isInfix)
        have hout : ¬ W <:+: subAll tryRule (cs.drop k) := by
          apply ih
          · simp only [List.length_cons] at hlen
            simp only [List.length_drop]
            omega
          · exact hdrop
        obtain ⟨p, hocc⟩ := infix_iff_occursAt.mp hbad
        rcases occursAt_append_cases hocc with hL | ⟨_, hR⟩ | ⟨u1, u2, hu, hu1, hu2, hs1, hs2, _⟩
        · exact (Hrep _ _ _ htry hs) hL.infix
        · exact hout hR.infix
        · have hu1t : u1 = W.take u1.length := take_of_append_eq hu
          have hlt : u1.length < W.length := by
            have := congrArg List.length hu
            simp at this
            have : u2.length ≠ 0 := fun hx => hu2 (List.eq_nil_of_length_eq_zero hx)
            omega
          have hpos : 0 < u1.length := by
            cases u1 with
            | nil => exact absurd rfl hu1
            | cons a as => simp
          exact Hstr _ _ _ htry u1.length hpos hlt (hu1t ▸ hs1)
      | none =>
        rw [subAll_cons, htry]
        simp only []
        intro hbad
        have hout : ¬ W <:+: subAll tryRule cs := by
          apply ih
          · simpa using hlen
          · exact hcs
        have hocc : W <:+: [c] ++ subAll tryRule cs := by simpa using hbad
        obtain ⟨p, hocc⟩ := infix_iff_occursAt.mp hocc
        rcases occursAt_append_cases hocc with hL | ⟨_, hR⟩ | ⟨u1, u2, hu, hu1, hu2, hs1, hs2, _⟩
        · -- `W` inside the single copied character: `W = [c]`, so `W`
          -- already prefixes the input.
          have hWc : W = [c] := by
            obtain ⟨pre, post, _, he⟩ := hL
            have hlen1 := congrArg List.length he
            simp at hlen1
            have hWlen : W.length ≠ 0 := fun hx => hW (List.eq_nil_of_length_eq_zero hx)
            have hpre : pre = [] := List.eq_nil_of_length_eq_zero (by omega)
            have hpost : post = [] := List.eq_nil_of_length_eq_zero (by omega)
            rw [hpre, hpost] at he
            simpa using he.symm
          refine hs ?_
          rw [hWc]
          exact List.IsPrefix.isInfix ⟨cs, rfl⟩
        · exact hout hR.infix
        · have hu1c : u1 = [c] := by
            obtain ⟨x, hx⟩ := hs1
            cases x with
            | nil => simpa using hx
            | cons a as =>
              have hlen2 := congrArg List.length hx
              simp only [List.length_append, List.length_cons, List.length_nil] at hlen2
              have hu1l : u1.length = 0 := by omega
              exact absurd (List.eq_nil_of_length_eq_zero hu1l) hu1
          have hu2d : u2 = W.drop 1 := by
            rw [hu, hu1c]
            simp
          have h1W : 1 < W.length := by
            have := congrArg List.length hu
            rw [hu1c] at this
            simp at this
            have : u2.length ≠ 0 := fun hx => hu2 (List.eq_nil_of_length_eq_zero hx)
            omega
          have hpre : W.drop 1 <+: cs := by
            apply prefix_reflect Hhead m cs 1 (by simpa using hlen) h1W
            rw [← hu2d]
            exact hs2
          have : W <+: c :: cs := by
            have hWd : W = c :: W.drop 1 := by
              conv_lhs => rw [hu, hu1c]
              rw [hu2d]
              rfl
            rw [hWd, List.cons_prefix_cons]
            exact ⟨rfl, hpre⟩
          exact hs this.isInfix

/-! ### Replacement structure of each rule -/

theorem mem_of_head?_eq {c : Char} {l : List Char} (h : l.head? = some c) : c ∈ l := by
  cases l with
  | nil => simp at h
  | cons d ds => simp at h; simp [h]

theorem mem_left_of_append_eq {W u1 u2 : List Char} {c : Char}
    (h : W = u1 ++ u2) (hm : c ∈ u1) : c ∈ W := by
  rw [h, List.mem_append]
  exact Or.inl hm

theorem mem_right_of_append_eq {W u1 u2 : List Char} {c : Char}
    (h : W = u1 ++ u2) (hm : c ∈ u2) : c ∈ W := by
  rw [h, List.mem_append]
  exact Or.inr hm

/-- When the `use`-statement prefix never occurs, the corresponding
import-cleanup pass is the identity. -/
theorem subAll_id_of_not_infix {prefixLit s : List Char}
    (h : ¬ prefixLit <:+: s) : subAll (tryUse prefixLit) s = s := by
  have hnone : ∀ j, tryUse prefixLit (s.drop j) = none := by
    intro j
    apply tryUse_none
    intro hp
    exact h (hp.isInfix.trans (List.drop_suffix j s).isInfix)
  have hc := subAll_copy s.length s (fun j _ => hnone j)
  rw [List.take_length, List.drop_length, subAll_nil, List.append_nil] at hc
  exact hc

theorem result1_rep_head {s rep : List Char} {k : Nat}
    (h : tryResult1 s = some (rep, k)) : rep.head? = some 'R' := by
  obtain ⟨g, w, rest, _, hrep, _⟩ := tryResult1_inv h
  rw [hrep]
  rfl

theorem result1_rep_last {s rep : List Char} {k : Nat}
    (h : tryResult1 s = some (rep, k)) : ∃ y, rep = y ++ ['>'] := by
  obtain ⟨g, w, rest, _, hrep, _⟩ := tryResult1_inv h
  refine ⟨"Result<".toList ++ g ++ ", ErrorData".toList, ?_⟩
  rw [hrep]
  have hsplit : (", ErrorData>".toList : List Char) = ", ErrorData".toList ++ ['>'] := rfl
  rw [hsplit, ← List.append_assoc]

theorem result2_rep_head {s rep : List Char} {k : Nat}
    (h : tryResult2 s = some (rep, k)) : rep.head? = some '-' := by
  obtain ⟨rest, _, hrep, _⟩ := tryResult2_inv h
  rw [hrep]
  rfl

theorem result2_rep_last {s rep : List Char} {k : Nat}
    (h : tryResult2 s = some (rep, k)) : ∃ y, rep = y ++ ['>'] := by
  obtain ⟨rest, _, hrep, _⟩ := tryResult2_inv h
  exact ⟨"-> Result<Vec<Content>, ErrorData".toList, by rw [hrep]; rfl⟩

theorem result3_rep_head {s rep : List Char} {k : Nat}
    (h : tryResult3 s = some (rep, k)) : rep.head? = some '-' := by
  obtain ⟨g, rest, _, hrep, _⟩ := tryResult3_inv h
  rw [hrep]
  rfl

theorem result3_rep_last {s rep : List Char} {k : Nat}
    (h : tryResult3 s = some (rep, k)) : ∃ y, rep = y ++ ['>'] := by
  obtain ⟨g, rest, _, hrep, _⟩ := tryResult3_inv h
  refine ⟨"-> Result<".toList ++ g ++ ", ErrorData".toList, ?_⟩
  rw [hrep]
  have hsplit : (", ErrorData>".toList : List Char) = ", ErrorData".toList ++ ['>'] := rfl
  rw [hsplit, ← List.append_assoc]

theorem ctor_rep_head {name code s rep : List Char} {k : Nat}
    (h : tryCtor name code s = some (rep, k)) : rep.head? = some 'E' := by
  obtain ⟨arg, rest, _, hrep, _⟩ := tryCtor_inv h
  rw [hrep]
  rfl

theorem ctor_rep_last {name code s rep : List Char} {k : Nat}
    (h : tryCtor name code s = some (rep, k)) : ∃ y, rep = y ++ [')'] := by
  obtain ⟨arg, rest, _, hrep, _⟩ := tryCtor_inv h
  refine ⟨"ErrorData::new(ErrorCode::".toList ++ code ++ ", ".toList ++ arg ++
    ", None".toList, ?_⟩
  rw [hrep]
  have hsplit : (", None)".toList : List Char) = ", None".toList ++ [')'] := rfl
  rw [hsplit, ← List.append_assoc]

theorem fmt_rep_head {name code s rep : List Char} {k : Nat}
    (h : tryFmt name code s = some (rep, k)) : rep.head? = some 'E' := by
  obtain ⟨arg, rest, _, hrep, _⟩ := tryFmt_inv h
  rw [hrep]
  rfl

theorem fmt_rep_last {name code s rep : List Char} {k : Nat}
    (h : tryFmt name code s = some (rep, k)) : ∃ y, rep = y ++ [')'] := by
  obtain ⟨arg, rest, _, hrep, _⟩ := tryFmt_inv h
  refine ⟨"ErrorData::new(ErrorCode::".toList ++ code ++ ", format!(".toList ++ arg ++
    "), None".toList, ?_⟩
  rw [hrep]
  have hsplit : ("), None)".toList : List Char) = "), None".toList ++ [')'] := rfl
  rw [hsplit, ← List.append_assoc]

/-! ### No rule writes a fresh occurrence of `W` into its replacement -/

theorem norep_result1 {W : List Char}
    (hLt : '<' ∉ W) (hComma : ',' ∉ W)
    (hInA : ¬ W <:+: "Result<".toList)
    (hInC : ¬ W <:+: ", ErrorData>".toList) :
    ∀ s rep k, tryResult1 s = some (rep, k) → ¬ W <:+: s → ¬ W <:+: rep := by
  intro s rep k hm hs hbad
  obtain ⟨g, w, rest, hseq, hrep, _, _, _⟩ := tryResult1_inv hm
  rw [hrep, List.append_assoc] at hbad
  obtain ⟨p, hocc⟩ := infix_iff_occursAt.mp hbad
  rcases occursAt_append_cases hocc with h1 | ⟨_, h1⟩ | ⟨u1, u2, hu, hu1, hu2, hs1, hs2, _⟩
  · exact hInA h1.infix
  · rcases occursAt_append_cases h1 with h2 | ⟨_, h2⟩ | ⟨v1, v2, hv, hv1, hv2, ht1, ht2, _⟩
    · refine hs ( h2.infix.trans ?_)
      rw [hseq]
      exact ⟨"Result<".toList, [','] ++ (w ++ ("ToolError>".toList ++ rest)), rfl⟩
    · exact hInC h2.infix
    · have hhd : v2.head? = some ',' := prefix_head_eq ht2 hv2
      exact hComma (mem_right_of_append_eq hv (mem_of_head?_eq hhd))
  · have hsplit : ("Result<".toList : List Char) = "Result".toList ++ ['<'] := rfl
    rw [hsplit] at hs1
    exact hLt (mem_left_of_append_eq hu (suffix_last_mem hu1 hs1))

theorem norep_result2 {W : List Char}
    (hIn : ¬ W <:+: "-> Result<Vec<Content>, ErrorData>".toList) :
    ∀ s rep k, tryResult2 s = some (rep, k) → ¬ W <:+: s → ¬ W <:+: rep := by
  intro s rep k hm _ hbad
  obtain ⟨rest, _, hrep, _⟩ := tryResult2_inv hm
  rw [hrep] at hbad
  exact hIn hbad

theorem norep_result3 {W : List Char}
    (hLt : '<' ∉ W) (hComma : ',' ∉ W)
    (hInA : ¬ W <:+: "-> Result<".toList)
    (hInC : ¬ W <:+: ", ErrorData>".toList) :
    ∀ s rep k, tryResult3 s = some (rep, k) → ¬ W <:+: s → ¬ W <:+: rep := by
  intro s rep k hm hs hbad
  obtain ⟨g, rest, hseq, hrep, _, _⟩ := tryResult3_inv hm
  rw [hrep, List.append_assoc] at hbad
  obtain ⟨p, hocc⟩ := infix_iff_occursAt.mp hbad
  rcases occursAt_append_cases hocc with h1 | ⟨_, h1⟩ | ⟨u1, u2, hu, hu1, hu2, hs1, hs2, _⟩
  · exact hInA h1.infix
  · rcases occursAt_append_cases h1 with h2 | ⟨_, h2⟩ | ⟨v1, v2, hv, hv1, hv2, ht1, ht2, _⟩
    · refine hs ( h2.infix.trans ?_)
      rw [hseq]
      exact ⟨"-> Result<".toList, ", ToolError>".toList ++ rest, rfl⟩
    · exact hInC h2.infix
    · have hhd : v2.head? = some ',' := prefix_head_eq ht2 hv2
      exact hComma (mem_right_of_append_eq hv (mem_of_head?_eq hhd))
  · have hsplit : ("-> Result<".toList : List Char) = "-> Result".toList ++ ['<'] := rfl
    rw [hsplit] at hs1
    exact hLt (mem_left_of_append_eq hu (suffix_last_mem hu1 hs1))

theorem norep_ctor {name code W : List Char}
    (hComma : ',' ∉ W)
    (hInA : ¬ W <:+: ("ErrorData::new(ErrorCode::".toList ++ code ++ ", ".toList))
    (hStrA : ∀ i, 0 < i → i < W.length →
      ¬ (W.take i <:+ ("ErrorData::new(ErrorCode::".toList ++ code ++ ", ".toList)))
    (hInC : ¬ W <:+: ", None)".toList) :
    ∀ s rep k, tryCtor name code s = some (rep, k) → ¬ W <:+: s → ¬ W <:+: rep := by
  intro s rep k hm hs hbad
  obtain ⟨arg, rest, hseq, hrep, _, _, _⟩ := tryCtor_inv hm
  rw [hrep, List.append_assoc] at hbad
  obtain ⟨p, hocc⟩ := infix_iff_occursAt.mp hbad
  rcases occursAt_append_cases hocc with h1 | ⟨_, h1⟩ | ⟨u1, u2, hu, hu1, hu2, hs1, hs2, _⟩
  · exact hInA h1.infix
  · rcases occursAt_append_cases h1 with h2 | ⟨_, h2⟩ | ⟨v1, v2, hv, hv1, hv2, ht1, ht2, _⟩
    · refine hs ( h2.infix.trans ?_)
      rw [hseq]
      exact ⟨teList ++ "::".toList ++ name ++ ['('], ')' :: rest, by simp⟩
    · exact hInC h2.infix
    · have hhd : v2.head? = some ',' := prefix_head_eq ht2 hv2
      exact hComma (mem_right_of_append_eq hv (mem_of_head?_eq hhd))
  · have hu1t : u1 = W.take u1.length := take_of_append_eq hu
    have hlt : u1.length < W.length := by
      have hl := congrArg List.length hu
      simp at hl
      have : u2.length ≠ 0 := fun hx => hu2 (List.eq_nil_of_length_eq_zero hx)
      omega
    have hpos : 0 < u1.length := by
      cases u1 with
      | nil => exact absurd rfl hu1
      | cons a as => simp
    exact hStrA u1.length hpos hlt (hu1t ▸ hs1)

theorem norep_fmt {name code W : List Char}
    (hPar : '(' ∉ W) (hClose : ')' ∉ W)
    (hInA : ¬ W <:+: ("ErrorData::new(ErrorCode::".toList ++ code ++ ", format!(".toList))
    (hInC : ¬ W <:+: "), None)".toList) :
    ∀ s rep k, tryFmt name code s = some (rep, k) → ¬ W <:+: s → ¬ W <:+: rep := by
  intro s rep k hm hs hbad
  obtain ⟨arg, rest, hseq, hrep, _, _, _⟩ := tryFmt_inv hm
  rw [hrep, List.append_assoc] at hbad
  obtain ⟨p, hocc⟩ := infix_iff_occursAt.mp hbad
  rcases occursAt_append_cases hocc with h1 | ⟨_, h1⟩ | ⟨u1, u2, hu, hu1, hu2, hs1, hs2, _⟩
  · exact hInA h1.infix
  · rcases occursAt_append_cases h1 with h2 | ⟨_, h2⟩ | ⟨v1, v2, hv, hv1, hv2, ht1, ht2, _⟩
    · refine hs ( h2.infix.trans ?_)
      rw [hseq]
      exact ⟨teList ++ "::".toList ++ name ++ "(format!(".toList, ')' :: (')' :: rest), by simp⟩
    · exact hInC h2.infix
    · have hhd : v2.head? = some ')' := prefix_head_eq ht2 hv2
      exact hClose (mem_right_of_append_eq hv (mem_of_head?_eq hhd))
  · have hsplit : ("ErrorData::new(ErrorCode::".toList ++ code ++ ", format!(".toList)
        = ("ErrorData::new(ErrorCode::".toList ++ code ++ ", format!".toList) ++ ['('] := by
      have h2 : (", format!(".toList : List Char) = ", format!".toList ++ ['('] := rfl
      rw [h2, ← List.append_assoc]
    rw [hsplit] at hs1
    exact hPar (mem_left_of_append_eq hu (suffix_last_mem hu1 hs1))

/-! ### Per-rule no-creation, packaged for the thirteen-rule pipeline -/

theorem no_create_infix {tryRule : List Char → Option (List Char × Nat)}
    {W : List Char} (hW : W ≠ [])
    (Hhead : ∀ s rep k, tryRule s = some (rep, k) →
      ∃ h0, rep.head? = some h0 ∧ h0 ∉ W)
    (Hrep : ∀ s rep k, tryRule s = some (rep, k) → ¬ W <:+: s → ¬ W <:+: rep)
    (Hstr : ∀ s rep k, tryRule s = some (rep, k) →
      ∀ i, 0 < i → i < W.length → ¬ (W.take i <:+ rep))
    {s : List Char} (h : ¬ W <:+: s) : ¬ W <:+: subAll tryRule s :=
  no_create hW Hhead Hrep Hstr s.length s (le_refl _) h

theorem nc_result1 {W : List Char} (hW : W ≠ []) (hR : 'R' ∉ W) (hGt : '>' ∉ W)
    (hLt : '<' ∉ W) (hComma : ',' ∉ W)
    (hInA : ¬ W <:+: "Result<".toList) (hInC : ¬ W <:+: ", ErrorData>".toList)
    {s : List Char} (h : ¬ W <:+: s) : ¬ W <:+: subAll tryResult1 s :=
  no_create_infix hW
    (fun _ _ _ hm => ⟨'R', result1_rep_head hm, hR⟩)
    (norep_result1 hLt hComma hInA hInC)
    (fun _ _ _ hm i hi hiW hsuf => by
      obtain ⟨y, hy⟩ := result1_rep_last hm
      exact take_not_suffix_last hGt hi hiW (hy ▸ hsuf))
    h

theorem nc_result2 {W : List Char} (hW : W ≠ []) (hD : '-' ∉ W) (hGt : '>' ∉ W)
    (hIn : ¬ W <:+: "-> Result<Vec<Content>, ErrorData>".toList)
    {s : List Char} (h : ¬ W <:+: s) : ¬ W <:+: subAll tryResult2 s :=
  no_create_infix hW
    (fun _ _ _ hm => ⟨'-', result2_rep_head hm, hD⟩)
    (norep_result2 hIn)
    (fun _ _ _ hm i hi hiW hsuf => by
      obtain ⟨y, hy⟩ := result2_rep_last hm
      exact take_not_suffix_last hGt hi hiW (hy ▸ hsuf))
    h

theorem nc_result3 {W : List Char} (hW : W ≠ []) (hD : '-' ∉ W) (hGt : '>' ∉ W)
    (hLt : '<' ∉ W) (hComma : ',' ∉ W)
    (hInA : ¬ W <:+: "-> Result<".toList) (hInC : ¬ W <:+: ", ErrorData>".toList)
    {s : List Char} (h : ¬ W <:+: s) : ¬ W <:+: subAll tryResult3 s :=
  no_create_infix hW
    (fun _ _ _ hm => ⟨'-', result3_rep_head hm, hD⟩)
    (norep_result3 hLt hComma hInA hInC)
    (fun _ _ _ hm i hi hiW hsuf => by
      obtain ⟨y, hy⟩ := result3_rep_last hm
      exact take_not_suffix_last hGt hi hiW (hy ▸ hsuf))
    h

theorem nc_ctor (name code : List Char) {W : List Char} (hW : W ≠ []) (hE : 'E' ∉ W)
    (hClose : ')' ∉ W) (hComma : ',' ∉ W)
    (hInA : ¬ W <:+: ("ErrorData::new(ErrorCode::".toList ++ code ++ ", ".toList))
    (hStrA : ∀ i, 0 < i → i < W.length →
      ¬ (W.take i <:+ ("ErrorData::new(ErrorCode::".toList ++ code ++ ", ".toList)))
    (hInC : ¬ W <:+: ", None)".toList)
    {s : List Char} (h : ¬ W <:+: s) : ¬ W <:+: subAll (tryCtor name code) s :=
  no_create_infix hW
    (fun _ _ _ hm => ⟨'E', ctor_rep_head hm, hE⟩)
    (norep_ctor hComma hInA hStrA hInC)
    (fun _ _ _ hm i hi hiW hsuf => by
      obtain ⟨y, hy⟩ := ctor_rep_last hm
      exact take_not_suffix_last hClose hi hiW (hy ▸ hsuf))
    h

theorem nc_fmt (name code : List Char) {W : List Char} (hW : W ≠ []) (hE : 'E' ∉ W)
    (hPar : '(' ∉ W) (hClose : ')' ∉ W)
    (hInA : ¬ W <:+: ("ErrorData::new(ErrorCode::".toList ++ code ++ ", format!(".toList))
    (hInC : ¬ W <:+: "), None)".toList)
    {s : List Char} (h : ¬ W <:+: s) : ¬ W <:+: subAll (tryFmt name code) s :=
  no_create_infix hW
    (fun _ _ _ hm => ⟨'E', fmt_rep_head hm, hE⟩)
    (norep_fmt hPar hClose hInA hInC)
    (fun _ _ _ hm i hi hiW hsuf => by
      obtain ⟨y, hy⟩ := fmt_rep_last hm
      exact take_not_suffix_last hClose hi hiW (hy ▸ hsuf))
    h

/-! ### A match overlapping the tracked occurrence keeps it in the
replacement

For the constructor rules, an occurrence of `U` overlapping the match
region is impossible when `U` is paren-incompatible with the pattern; for
the `format!` rules the occurrence can end at the first closing paren, and
the replacement then re-assembles it around the kept argument. -/

theorem hov_ctor_preserve {name code U : List Char}
    (hUne : U ≠ [])
    (hInLit : ¬ U <:+: (teList ++ "::".toList ++ name ++ ['(']))
    (hStr : ∀ i, 0 < i → i < U.length →
      ¬ (U.take i <:+ (teList ++ "::".toList ++ name ++ ['('])))
    (hParen : '(' ∈ U)
    (hIdx : ∀ i, 0 < i → i < U.length → (U.drop i).head? = some ')' → '(' ∈ U.take i)
    (hHead : U.head? ≠ some ')') :
    ∀ s rep k p, tryCtor name code s = some (rep, k) → occursAt U s p → p ≤ k →
      U <:+: rep := by
  intro s rep k p hm hocc hpk
  exfalso
  obtain ⟨arg, rest, hseq, hrep, hk, hargne, harg⟩ := tryCtor_inv hm
  subst hseq
  rcases occursAt_append_cases hocc with h1 | ⟨hpl, h1⟩ | ⟨u1, u2, hu, hu1, hu2, hs1, hs2, _⟩
  · exact hInLit h1.infix
  · rcases occursAt_append_cases h1 with h2 | ⟨hpa, h2⟩ | ⟨v1, v2, hv, hv1, hv2, ht1, ht2, _⟩
    · have := harg '(' ( h2.infix.subset hParen)
      simp [ctorArgChar] at this
    · have hq : p - (teList ++ "::".toList ++ name ++ ['(']).length - arg.length = 0 := by
        omega
      rw [hq] at h2
      exact hHead (prefix_head_eq (occursAt_zero_iff.mp h2) hUne)
    · have hv1t : v1 = U.take v1.length := take_of_append_eq hv
      have hv2t : v2 = U.drop v1.length := drop_of_append_eq hv
      have hlt : v1.length < U.length := by
        have hl := congrArg List.length hv
        simp at hl
        have : v2.length ≠ 0 := fun hx => hv2 (List.eq_nil_of_length_eq_zero hx)
        omega
      have hpos : 0 < v1.length := by
        cases v1 with
        | nil => exact absurd rfl hv1
        | cons a as => simp
      have hhd : v2.head? = some ')' := prefix_head_eq ht2 hv2
      have hPmem : '(' ∈ U.take v1.length :=
        hIdx v1.length hpos hlt (by rw [← hv2t]; exact hhd)
      have := harg '(' (ht1.subset (hv1t ▸ hPmem))
      simp [ctorArgChar] at this
  · have hu1t : u1 = U.take u1.length := take_of_append_eq hu
    have hlt : u1.length < U.length := by
      have hl := congrArg List.length hu
      simp at hl
      have : u2.length ≠ 0 := fun hx => hu2 (List.eq_nil_of_length_eq_zero hx)
      omega
    have hpos : 0 < u1.length := by
      cases u1 with
      | nil => exact absurd rfl hu1
      | cons a as => simp
    exact hStr u1.length hpos hlt (hu1t ▸ hs1)

theorem hov_fmt_carry {name code U : List Char}
    (hUne : U ≠ [])
    (hInLit : ¬ U <:+: (teList ++ "::".toList ++ name ++ "(format!(".toList))
    (hStr : ∀ i, 0 < i → i < U.length →
      ¬ (U.take i <:+ (teList ++ "::".toList ++ name ++ "(format!(".toList)))
    (hClose : ')' ∈ U)
    (hLastDrop : ∀ i, 0 < i → i < U.length → (U.drop i).head? = some ')' →
      U.drop i = [')'])
    (hHead : U.head? ≠ some ')') :
    ∀ s rep k p, tryFmt name code s = some (rep, k) → occursAt U s p → p ≤ k →
      U <:+: rep := by
  intro s rep k p hm hocc hpk
  obtain ⟨arg, rest, hseq, hrep, hk, hargne, harg⟩ := tryFmt_inv hm
  subst hseq
  rcases occursAt_append_cases hocc with h1 | ⟨hpl, h1⟩ | ⟨u1, u2, hu, hu1, hu2, hs1, hs2, _⟩
  · exact absurd h1.infix hInLit
  · rcases occursAt_append_cases h1 with h2 | ⟨hpa, h2⟩ | ⟨v1, v2, hv, hv1, hv2, ht1, ht2, _⟩
    · exfalso
      have := harg ')' ( h2.infix.subset hClose)
      simp [fmtArgChar] at this
    · exfalso
      have hq : p - (teList ++ "::".toList ++ name ++ "(format!(".toList).length
          - arg.length ≤ 1 := by omega
      rcases Nat.lt_or_ge (p - (teList ++ "::".toList ++ name ++
          "(format!(".toList).length - arg.length) 1 with hq0 | hq1
      · have h0 : p - (teList ++ "::".toList ++ name ++ "(format!(".toList).length
            - arg.length = 0 := by omega
        rw [h0] at h2
        exact hHead (prefix_head_eq (occursAt_zero_iff.mp h2) hUne)
      · have h1e : p - (teList ++ "::".toList ++ name ++ "(format!(".toList).length
            - arg.length = 1 := by omega
        rw [h1e] at h2
        have h2' := occursAt_cons_pos h2 (by omega)
        simp only [Nat.sub_self] at h2'
        exact hHead (prefix_head_eq (occursAt_zero_iff.mp h2') hUne)
    · have hv1t : v1 = U.take v1.length := take_of_append_eq hv
      have hv2t : v2 = U.drop v1.length := drop_of_append_eq hv
      have hlt : v1.length < U.length := by
        have hl := congrArg List.length hv
        simp at hl
        have : v2.length ≠ 0 := fun hx => hv2 (List.eq_nil_of_length_eq_zero hx)
        omega
      have hpos : 0 < v1.length := by
        cases v1 with
        | nil => exact absurd rfl hv1
        | cons a as => simp
      have hhd : v2.head? = some ')' := prefix_head_eq ht2 hv2
      have hdrop : U.drop v1.length = [')'] :=
        hLastDrop v1.length hpos hlt (by rw [← hv2t]; exact hhd)
      have hv2e : v2 = [')'] := hv2t.trans hdrop
      obtain ⟨a0, ha0⟩ := ht1
      rw [hrep]
      refine ⟨"ErrorData::new(ErrorCode::".toList ++ code ++ ", format!(".toList ++ a0,
        ", None)".toList, ?_⟩
      have hU : U = v1 ++ [')'] := by rw [hv, hv2e]
      have hsplit : ("), None)".toList : List Char) = [')'] ++ ", None)".toList := rfl
      rw [hU, ← ha0, hsplit]
      simp [List.append_assoc]
  · exfalso
    have hu1t : u1 = U.take u1.length := take_of_append_eq hu
    have hlt : u1.length < U.length := by
      have hl := congrArg List.length hu
      simp at hl
      have : u2.length ≠ 0 := fun hx => hu2 (List.eq_nil_of_length_eq_zero hx)
      omega
    have hpos : 0 < u1.length := by
      cases u1 with
      | nil => exact absurd rfl hu1
      | cons a as => simp
    exact hStr u1.length hpos hlt (hu1t ▸ hs1)

/-! ### Straddle-elimination helpers -/

theorem straddle_kill {U x u1 u2 : List Char}
    (hu : U = u1 ++ u2) (hu1 : u1 ≠ []) (hu2 : u2 ≠ []) (hs1 : u1 <:+ x)
    (hdec : ∀ i, 0 < i → i < U.length → ¬ (U.take i <:+ x)) : False := by
  have hu1t : u1 = U.take u1.length := take_of_append_eq hu
  have hlt : u1.length < U.length := by
    have hl := congrArg List.length hu
    simp at hl
    have : u2.length ≠ 0 := fun hx => hu2 (List.eq_nil_of_length_eq_zero hx)
    omega
  have hpos : 0 < u1.length := by
    cases u1 with
    | nil => exact absurd rfl hu1
    | cons a as => simp
  exact hdec u1.length hpos hlt (hu1t ▸ hs1)

theorem straddle_kill_head {U u1 u2 : List Char} {c : Char} {l : List Char}
    (hu : U = u1 ++ u2) (hu2 : u2 ≠ []) (hs2 : u2 <+: c :: l) (hc : c ∉ U) : False :=
  hc (mem_right_of_append_eq hu (mem_of_head?_eq (prefix_head_eq hs2 hu2)))

theorem straddle_kill_last (y : List Char) {U u1 u2 : List Char} {c : Char}
    (hu : U = u1 ++ u2) (hu1 : u1 ≠ []) (hs1 : u1 <:+ (y ++ [c])) (hc : c ∉ U) : False :=
  hc (mem_left_of_append_eq hu (suffix_last_mem hu1 hs1))

/-! ### Decidable facts about the tracked strings -/

theorem strO_take_T : ∀ i < strO.length, 0 < i → 'T' ∈ strO.take i := by decide

theorem strO_no_suffix_TE :
    ∀ i < strO.length, 0 < i → ¬ (strO.take i <:+ "ToolError>".toList) := by decide

/-! ### Overlap analysis for the `Result` rules on `strO` -/

theorem hov_R1_O :
    ∀ s rep k p, tryResult1 s = some (rep, k) → occursAt strO s p → p ≤ k →
      strO <:+: rep := by
  intro s rep k p hm hocc hpk
  obtain ⟨g, w, rest, hseq, hrep, hk, hgne, hw⟩ := tryResult1_inv hm
  subst hseq
  have e24 : strO.length = 24 := rfl
  have e7 : ("Result<".toList : List Char).length = 7 := rfl
  have e1 : ([','] : List Char).length = 1 := rfl
  have e10 : ("ToolError>".toList : List Char).length = 10 := rfl
  rcases occursAt_append_cases hocc with h1 | ⟨hp1, h1⟩ | ⟨u1, u2, hu, hu1, hu2, hs1, hs2, _⟩
  · have := occursAt_length h1
    omega
  · rcases occursAt_append_cases h1 with h2 | ⟨hp2, h2⟩ | ⟨v1, v2, hv, hv1, hv2, ht1, ht2, _⟩
    · rw [hrep]
      exact h2.infix.trans ⟨"Result<".toList, ", ErrorData>".toList, rfl⟩
    · rcases occursAt_append_cases h2 with h3 | ⟨hp3, h3⟩ | ⟨v1, v2, hv, hv1, hv2, ht1, ht2, _⟩
      · have := occursAt_length h3
        omega
      · rcases occursAt_append_cases h3 with h4 | ⟨hp4, h4⟩ | ⟨v1, v2, hv, hv1, hv2, ht1, ht2, _⟩
        · exfalso
          have hTmem : 'T' ∈ w := h4.infix.subset (by decide : 'T' ∈ strO)
          exact absurd (hw 'T' hTmem) (by decide)
        · rcases occursAt_append_cases h4 with h5 | ⟨hp5, h5⟩ | ⟨v1, v2, hv, hv1, hv2, ht1, ht2, _⟩
          · have := occursAt_length h5
            omega
          · omega
          · exact absurd (straddle_kill hv hv1 hv2 ht1
              (fun i hi hiU => strO_no_suffix_TE i (by omega) hi)) id
        · exfalso
          have hv1t : v1 = strO.take v1.length := take_of_append_eq hv
          have hlt : v1.length < strO.length := by
            have hl := congrArg List.length hv
            simp at hl
            have : v2.length ≠ 0 := fun hx => hv2 (List.eq_nil_of_length_eq_zero hx)
            omega
          have hpos : 0 < v1.length := by
            cases v1 with
            | nil => exact absurd rfl hv1
            | cons a as => simp
          have hTmem : 'T' ∈ v1 := by
            rw [hv1t]
            exact strO_take_T v1.length hlt hpos
          exact absurd (hw 'T' (ht1.subset hTmem)) (by decide)
      · exact absurd (straddle_kill_last [] hv hv1 ht1 (by decide : ',' ∉ strO)) id
    · exact absurd (straddle_kill_head hv hv2 ht2 (by decide : ',' ∉ strO)) id
  · exact absurd (straddle_kill_last "Result".toList hu hu1 hs1
      (by decide : '<' ∉ strO)) id

theorem hov_R2_O :
    ∀ s rep k p, tryResult2 s = some (rep, k) → occursAt strO s p → p ≤ k →
      strO <:+: rep := by
  intro s rep k p hm hocc hpk
  exfalso
  obtain ⟨rest, hseq, hrep, hk⟩ := tryResult2_inv hm
  subst hseq
  have e34 : ("-> Result<Vec<Content>, ToolError>".toList : List Char).length = 34 := rfl
  rcases occursAt_append_cases hocc with h1 | ⟨hp1, h1⟩ | ⟨u1, u2, hu, hu1, hu2, hs1, hs2, _⟩
  · exact absurd h1.infix (by decide)
  · omega
  · exact straddle_kill_last "-> Result<Vec<Content>, ToolError".toList hu hu1 hs1
      (by decide : '>' ∉ strO)

theorem hov_R3_O :
    ∀ s rep k p, tryResult3 s = some (rep, k) → occursAt strO s p → p ≤ k →
      strO <:+: rep := by
  intro s rep k p hm hocc hpk
  obtain ⟨g, rest, hseq, hrep, hk, hgne⟩ := tryResult3_inv hm
  subst hseq
  have e24 : strO.length = 24 := rfl
  have e10 : ("-> Result<".toList : List Char).length = 10 := rfl
  have e12 : (", ToolError>".toList : List Char).length = 12 := rfl
  rcases occursAt_append_cases hocc with h1 | ⟨hp1, h1⟩ | ⟨u1, u2, hu, hu1, hu2, hs1, hs2, _⟩
  · have := occursAt_length h1
    omega
  · rcases occursAt_append_cases h1 with h2 | ⟨hp2, h2⟩ | ⟨v1, v2, hv, hv1, hv2, ht1, ht2, _⟩
    · rw [hrep]
      exact h2.infix.trans ⟨"-> Result<".toList, ", ErrorData>".toList, rfl⟩
    · rcases occursAt_append_cases h2 with h3 | ⟨hp3, h3⟩ | ⟨v1, v2, hv, hv1, hv2, ht1, ht2, _⟩
      · have := occursAt_length h3
        omega
      · omega
      · exact absurd (straddle_kill_last ", ToolError".toList hv hv1 ht1
          (by decide : '>' ∉ strO)) id
    · exact absurd (straddle_kill_head hv hv2 ht2 (by decide : ',' ∉ strO)) id
  · exact absurd (straddle_kill_last "-> Result".toList hu hu1 hs1
      (by decide : '<' ∉ strO)) id

/-! ### The `NotFound` rule writes `strT` over an occurrence of `strO` -/

theorem takeWhile_append_stop {p : Char → Bool} {a : List Char} {d : Char} {l : List Char}
    (ha : ∀ c ∈ a, p c = true) (hd : p d = false) :
    (a ++ d :: l).takeWhile p = a := by
  induction a with
  | nil =>
    rw [List.nil_append]
    exact List.takeWhile_cons_of_neg (by simp [hd])
  | cons x xs ih =>
    rw [List.cons_append, List.takeWhile_cons_of_pos (ha x (List.mem_cons_self x xs)),
      ih (fun c hc => ha c (List.mem_cons_of_mem x hc))]

/-- `tryCtor NotFound` always fires on an input starting with `strO`. -/
theorem tryCtor_NF_step (t : List Char) :
    tryCtor "NotFound".toList "INVALID_REQUEST".toList (strO ++ t) =
      some (strT, 23) := by
  have hsplit : strO ++ t =
      (teList ++ "::".toList ++ "NotFound".toList ++ ['(']) ++ ('"' :: 'x' :: '"' :: ')' :: t) := rfl
  unfold tryCtor
  rw [hsplit, dropLit_append]
  have htw : (('"' :: 'x' :: '"' :: ')' :: t) : List Char).takeWhile ctorArgChar = ['"','x','"'] := rfl
  simp only [htw]
  rfl

theorem strO_suffix_litNF :
    ∀ i < strO.length, 0 < i →
      (strO.take i <:+ (teList ++ "::".toList ++ "NotFound".toList ++ ['('])) → i = 20 := by
  decide

theorem strO_drop_close :
    ∀ i < strO.length, 0 < i → (strO.drop i).head? = some ')' → '(' ∈ strO.take i := by
  decide

theorem hov_R6_produce :
    ∀ s rep k p, tryCtor "NotFound".toList "INVALID_REQUEST".toList s = some (rep, k) →
      occursAt strO s p → p ≤ k → strT <:+: rep := by
  intro s rep k p hm hocc hpk
  obtain ⟨arg, rest, hseq, hrep, hk, hargne, harg⟩ := tryCtor_inv hm
  subst hseq
  have e24 : strO.length = 24 := rfl
  have e20 : ((teList ++ "::".toList ++ "NotFound".toList ++ ['(']) : List Char).length = 20 := rfl
  rcases occursAt_append_cases hocc with h1 | ⟨hp1, h1⟩ | ⟨u1, u2, hu, hu1, hu2, hs1, hs2, _⟩
  · have := occursAt_length h1
    omega
  · exfalso
    rcases occursAt_append_cases h1 with h2 | ⟨hp2, h2⟩ | ⟨v1, v2, hv, hv1, hv2, ht1, ht2, _⟩
    · have := harg '(' ( h2.infix.subset (by decide : '(' ∈ strO))
      simp [ctorArgChar] at this
    · have hq : p - ((teList ++ "::".toList ++ "NotFound".toList ++ ['(']) : List Char).length
          - arg.length = 0 := by omega
      rw [hq] at h2
      have := prefix_head_eq (occursAt_zero_iff.mp h2) (by decide : strO ≠ [])
      exact absurd this (by decide)
    · have hv1t : v1 = strO.take v1.length := take_of_append_eq hv
      have hv2t : v2 = strO.drop v1.length := drop_of_append_eq hv
      have hlt : v1.length < strO.length := by
        have hl := congrArg List.length hv
        simp at hl
        have : v2.length ≠ 0 := fun hx => hv2 (List.eq_nil_of_length_eq_zero hx)
        omega
      have hpos : 0 < v1.length := by
        cases v1 with
        | nil => exact absurd rfl hv1
        | cons a as => simp
      have hhd : v2.head? = some ')' := prefix_head_eq ht2 hv2
      have hPmem : '(' ∈ strO.take v1.length :=
        strO_drop_close v1.length hlt hpos (by rw [← hv2t]; exact hhd)
      have := harg '(' (ht1.subset (hv1t ▸ hPmem))
      simp [ctorArgChar] at this
  · -- straddle of the literal: the occurrence starts exactly at the match,
    -- `arg` is forced to `"x"` (with quotes) and the replacement is `strT`.
    have hu1t : u1 = strO.take u1.length := take_of_append_eq hu
    have hu2t : u2 = strO.drop u1.length := drop_of_append_eq hu
    have hlt : u1.length < strO.length := by
      have hl := congrArg List.length hu
      simp at hl
      have : u2.length ≠ 0 := fun hx => hu2 (List.eq_nil_of_length_eq_zero hx)
      omega
    have hpos : 0 < u1.length := by
      cases u1 with
      | nil => exact absurd rfl hu1
      | cons a as => simp
    have h20 : u1.length = 20 := strO_suffix_litNF u1.length hlt hpos (hu1t ▸ hs1)
    have hu2e : u2 = '"' :: 'x' :: '"' :: ')' :: [] := by
      rw [hu2t, h20]
      rfl
    obtain ⟨t2, ht2⟩ := hs2
    rw [hu2e] at ht2
    have hargX : arg = (arg ++ ')'::rest).takeWhile ctorArgChar :=
      (takeWhile_append_stop harg (by decide : ctorArgChar ')' = false)).symm
    rw [← ht2] at hargX
    have hargE : arg = ['"', 'x', '"'] := by
      rw [hargX]
      rfl
    have hrepT : rep = strT := by
      rw [hrep, hargE]
      rfl
    rw [hrepT]

/-! ### Suffix-compatibility facts used by the per-rule carries -/

theorem strO_noSuffix_litExec : ∀ i < strO.length, 0 < i →
    ¬ (strO.take i <:+ (teList ++ "::".toList ++ "ExecutionError".toList ++ ['('])) := by
  decide

theorem strO_noSuffix_litIP : ∀ i < strO.length, 0 < i →
    ¬ (strO.take i <:+ (teList ++ "::".toList ++ "InvalidParameters".toList ++ ['('])) := by
  decide

theorem strT_noSuffix_litSchema : ∀ i < strT.length, 0 < i →
    ¬ (strT.take i <:+ (teList ++ "::".toList ++ "SchemaError".toList ++ ['('])) := by
  decide

theorem strT_noSuffix_fmtExec : ∀ i < strT.length, 0 < i →
    ¬ (strT.take i <:+ (teList ++ "::".toList ++ "ExecutionError".toList ++
      "(format!(".toList)) := by
  decide

theorem strT_noSuffix_fmtIP : ∀ i < strT.length, 0 < i →
    ¬ (strT.take i <:+ (teList ++ "::".toList ++ "InvalidParameters".toList ++
      "(format!(".toList)) := by
  decide

theorem strT_noSuffix_fmtNF : ∀ i < strT.length, 0 < i →
    ¬ (strT.take i <:+ (teList ++ "::".toList ++ "NotFound".toList ++
      "(format!(".toList)) := by
  decide

theorem strT_noSuffix_fmtSchema : ∀ i < strT.length, 0 < i →
    ¬ (strT.take i <:+ (teList ++ "::".toList ++ "SchemaError".toList ++
      "(format!(".toList)) := by
  decide

theorem strT_drop_close : ∀ i < strT.length, 0 < i →
    (strT.drop i).head? = some ')' → '(' ∈ strT.take i := by decide

theorem strT_drop_close_single : ∀ i < strT.length, 0 < i →
    (strT.drop i).head? = some ')' → strT.drop i = [')'] := by decide

/-! ### Carrying the tracked occurrence through each rule -/

theorem carry_R1_O {s : List Char} (h : strO <:+: s) : strO <:+: subAll tryResult1 s :=
  subAll_carry_infix (by decide)
    (hin_of_firstLit (fun _ hx => tryResult1_none hx) (by decide))
    hov_R1_O
    (fun _ _ _ => List.infix_rfl)
    h

theorem carry_R2_O {s : List Char} (h : strO <:+: s) : strO <:+: subAll tryResult2 s :=
  subAll_carry_infix (by decide)
    (hin_of_firstLit (fun _ hx => tryResult2_none hx) (by decide))
    hov_R2_O
    (fun _ _ _ => List.infix_rfl)
    h

theorem carry_R3_O {s : List Char} (h : strO <:+: s) : strO <:+: subAll tryResult3 s :=
  subAll_carry_infix (by decide)
    (hin_of_firstLit (fun _ hx => tryResult3_none hx) (by decide))
    hov_R3_O
    (fun _ _ _ => List.infix_rfl)
    h

theorem carry_R4_O {s : List Char} (h : strO <:+: s) :
    strO <:+: subAll (tryCtor "ExecutionError".toList "INTERNAL_ERROR".toList) s :=
  subAll_carry_infix (by decide)
    (hin_of_firstLit (fun _ hx => tryCtor_none hx) (by decide))
    (hov_ctor_preserve (by decide) (by decide)
      (fun i hi hiU => strO_noSuffix_litExec i hiU hi) (by decide)
      (fun i hi hiU => strO_drop_close i hiU hi) (by decide))
    (fun _ _ _ => List.infix_rfl)
    h

theorem carry_R5_O {s : List Char} (h : strO <:+: s) :
    strO <:+: subAll (tryCtor "InvalidParameters".toList "INVALID_PARAMS".toList) s :=
  subAll_carry_infix (by decide)
    (hin_of_firstLit (fun _ hx => tryCtor_none hx) (by decide))
    (hov_ctor_preserve (by decide) (by decide)
      (fun i hi hiU => strO_noSuffix_litIP i hiU hi) (by decide)
      (fun i hi hiU => strO_drop_close i hiU hi) (by decide))
    (fun _ _ _ => List.infix_rfl)
    h

theorem carry_R6_OT {s : List Char} (h : strO <:+: s) :
    strT <:+: subAll (tryCtor "NotFound".toList "INVALID_REQUEST".toList) s :=
  subAll_carry_infix (by decide)
    (hin_of_firstLit (fun _ hx => tryCtor_none hx) (by decide))
    hov_R6_produce
    (fun s hpre hn => by
      obtain ⟨t, rfl⟩ := hpre
      rw [tryCtor_NF_step] at hn
      exact Option.noConfusion hn)
    h

theorem carry_R7_T {s : List Char} (h : strT <:+: s) :
    strT <:+: subAll (tryCtor "SchemaError".toList "INVALID_PARAMS".toList) s :=
  subAll_carry_infix (by decide)
    (hin_of_firstLit (fun _ hx => tryCtor_none hx) (by decide))
    (hov_ctor_preserve (by decide) (by decide)
      (fun i hi hiU => strT_noSuffix_litSchema i hiU hi) (by decide)
      (fun i hi hiU => strT_drop_close i hiU hi) (by decide))
    (fun _ _ _ => List.infix_rfl)
    h

theorem carry_R8_T {s : List Char} (h : strT <:+: s) :
    strT <:+: subAll (tryFmt "ExecutionError".toList "INTERNAL_ERROR".toList) s :=
  subAll_carry_infix (by decide)
    (hin_of_firstLit (fun _ hx => tryFmt_none hx) (by decide))
    (hov_fmt_carry (by decide) (by decide)
      (fun i hi hiU => strT_noSuffix_fmtExec i hiU hi) (by decide)
      (fun i hi hiU => strT_drop_close_single i hiU hi) (by decide))
    (fun _ _ _ => List.infix_rfl)
    h

theorem carry_R9_T {s : List Char} (h : strT <:+: s) :
    strT <:+: subAll (tryFmt "InvalidParameters".toList "INVALID_PARAMS".toList) s :=
  subAll_carry_infix (by decide)
    (hin_of_firstLit (fun _ hx => tryFmt_none hx) (by decide))
    (hov_fmt_carry (by decide) (by decide)
      (fun i hi hiU => strT_noSuffix_fmtIP i hiU hi) (by decide)
      (fun i hi hiU => strT_drop_close_single i hiU hi) (by decide))
    (fun _ _ _ => List.infix_rfl)
    h

theorem carry_R10_T {s : List Char} (h : strT <:+: s) :
    strT <:+: subAll (tryFmt "NotFound".toList "INVALID_REQUEST".toList) s :=
  subAll_carry_infix (by decide)
    (hin_of_firstLit (fun _ hx => tryFmt_none hx) (by decide))
    (hov_fmt_carry (by decide) (by decide)
      (fun i hi hiU => strT_noSuffix_fmtNF i hiU hi) (by decide)
      (fun i hi hiU => strT_drop_close_single i hiU hi) (by decide))
    (fun _ _ _ => List.infix_rfl)
    h

theorem carry_R11_T {s : List Char} (h : strT <:+: s) :
    strT <:+: subAll (tryFmt "SchemaError".toList "INVALID_PARAMS".toList) s :=
  subAll_carry_infix (by decide)
    (hin_of_firstLit (fun _ hx => tryFmt_none hx) (by decide))
    (hov_fmt_carry (by decide) (by decide)
      (fun i hi hiU => strT_noSuffix_fmtSchema i hiU hi) (by decide)
      (fun i hi hiU => strT_drop_close_single i hiU hi) (by decide))
    (fun _ _ _ => List.infix_rfl)
    h

/-! ### Neither `use`-statement prefix is ever created by rules 1-11 -/

theorem strW_noSuffix_AC_IE : ∀ i < strW.length, 0 < i →
    ¬ (strW.take i <:+ ("ErrorData::new(ErrorCode::".toList ++
      "INTERNAL_ERROR".toList ++ ", ".toList)) := by decide

theorem strW_noSuffix_AC_IP : ∀ i < strW.length, 0 < i →
    ¬ (strW.take i <:+ ("ErrorData::new(ErrorCode::".toList ++
      "INVALID_PARAMS".toList ++ ", ".toList)) := by decide

theorem strW_noSuffix_AC_IR : ∀ i < strW.length, 0 < i →
    ¬ (strW.take i <:+ ("ErrorData::new(ErrorCode::".toList ++
      "INVALID_REQUEST".toList ++ ", ".toList)) := by decide

theorem strW2_noSuffix_AC_IE : ∀ i < strW2.length, 0 < i →
    ¬ (strW2.take i <:+ ("ErrorData::new(ErrorCode::".toList ++
      "INTERNAL_ERROR".toList ++ ", ".toList)) := by decide

theorem strW2_noSuffix_AC_IP : ∀ i < strW2.length, 0 < i →
    ¬ (strW2.take i <:+ ("ErrorData::new(ErrorCode::".toList ++
      "INVALID_PARAMS".toList ++ ", ".toList)) := by decide

theorem strW2_noSuffix_AC_IR : ∀ i < strW2.length, 0 < i →
    ¬ (strW2.take i <:+ ("ErrorData::new(ErrorCode::".toList ++
      "INVALID_REQUEST".toList ++ ", ".toList)) := by decide

/-! ### The pipeline, rule by rule -/

theorem convert_fst (c : List Char) :
    (convert_tool_errors c).1 =
      subAll (tryUse strW2)
        (subAll (tryUse strW)
          (subAll (tryFmt "SchemaError".toList "INVALID_PARAMS".toList)
            (subAll (tryFmt "NotFound".toList "INVALID_REQUEST".toList)
              (subAll (tryFmt "InvalidParameters".toList "INVALID_PARAMS".toList)
                (subAll (tryFmt "ExecutionError".toList "INTERNAL_ERROR".toList)
                  (subAll (tryCtor "SchemaError".toList "INVALID_PARAMS".toList)
                    (subAll (tryCtor "NotFound".toList "INVALID_REQUEST".toList)
                      (subAll (tryCtor "InvalidParameters".toList "INVALID_PARAMS".toList)
                        (subAll (tryCtor "ExecutionError".toList "INTERNAL_ERROR".toList)
                          (subAll tryResult3
                            (subAll tryResult2
                              (subAll tryResult1 c)))))))))))) := by
  have hfst : ∀ st rule, (applyRule st rule).1 = subAll rule st.1 := by
    intro st rule
    by_cases hh : subAll rule st.1 = st.1
    · simp [applyRule, hh]
    · simp [applyRule, hh]
  simp only [convert_tool_errors, ruleList, List.foldl_cons, List.foldl_nil, hfst]
  rfl

/-- C3 (amended): for every file content that contains the call
`ToolError::NotFound("x")` and contains neither `use mcp_core::\x7b` nor
`use mcp_core::handler::\x7b` (so the import-cleanup rules, which can
splice the replacement apart, never fire), the content produced by the
rewrite rules contains `ErrorData::new(ErrorCode::INVALID_REQUEST, "x",
None)` in its place. -/
theorem C3_amended {c : List Char} (hO : strO <:+: c)
    (hW : ¬ strW <:+: c) (hW2 : ¬ strW2 <:+: c) :
    strT <:+: (convert_tool_errors c).1 := by
  have a1 := carry_R1_O hO
  have b1 := nc_result1 (by decide) (by decide) (by decide) (by decide) (by decide)
    (by decide) (by decide) hW
  have d1 := nc_result1 (by decide) (by decide) (by decide) (by decide) (by decide)
    (by decide) (by decide) hW2
  have a2 := carry_R2_O a1
  have b2 := nc_result2 (by decide) (by decide) (by decide) (by decide) b1
  have d2 := nc_result2 (by decide) (by decide) (by decide) (by decide) d1
  have a3 := carry_R3_O a2
  have b3 := nc_result3 (by decide) (by decide) (by decide) (by decide) (by decide)
    (by decide) (by decide) b2
  have d3 := nc_result3 (by decide) (by decide) (by decide) (by decide) (by decide)
    (by decide) (by decide) d2
  have a4 := carry_R4_O a3
  have b4 := nc_ctor "ExecutionError".toList "INTERNAL_ERROR".toList (by decide)
    (by decide) (by decide) (by decide) (by decide)
    (fun i hi hiW => strW_noSuffix_AC_IE i hiW hi) (by decide) b3
  have d4 := nc_ctor "ExecutionError".toList "INTERNAL_ERROR".toList (by decide)
    (by decide) (by decide) (by decide) (by decide)
    (fun i hi hiW => strW2_noSuffix_AC_IE i hiW hi) (by decide) d3
  have a5 := carry_R5_O a4
  have b5 := nc_ctor "InvalidParameters".toList "INVALID_PARAMS".toList (by decide)
    (by decide) (by decide) (by decide) (by decide)
    (fun i hi hiW => strW_noSuffix_AC_IP i hiW hi) (by decide) b4
  have d5 := nc_ctor "InvalidParameters".toList "INVALID_PARAMS".toList (by decide)
    (by decide) (by decide) (by decide) (by decide)
    (fun i hi hiW => strW2_noSuffix_AC_IP i hiW hi) (by decide) d4
  have a6 := carry_R6_OT a5
  have b6 := nc_ctor "NotFound".toList "INVALID_REQUEST".toList (by decide)
    (by decide) (by decide) (by decide) (by decide)
    (fun i hi hiW => strW_noSuffix_AC_IR i hiW hi) (by decide) b5
  have d6 := nc_ctor "NotFound".toList "INVALID_REQUEST".toList (by decide)
    (by decide) (by decide) (by decide) (by decide)
    (fun i hi hiW => strW2_noSuffix_AC_IR i hiW hi) (by decide) d5
  have a7 := carry_R7_T a6
  have b7 := nc_ctor "SchemaError".toList "INVALID_PARAMS".toList (by decide)
    (by decide) (by decide) (by decide) (by decide)
    (fun i hi hiW => strW_noSuffix_AC_IP i hiW hi) (by decide) b6
  have d7 := nc_ctor "SchemaError".toList "INVALID_PARAMS".toList (by decide)
    (by decide) (by decide) (by decide) (by decide)
    (fun i hi hiW => strW2_noSuffix_AC_IP i hiW hi) (by decide) d6
  have a8 := carry_R8_T a7
  have b8 := nc_fmt "ExecutionError".toList "INTERNAL_ERROR".toList (by decide)
    (by decide) (by decide) (by decide) (by decide) (by decide) b7
  have d8 := nc_fmt "ExecutionError".toList "INTERNAL_ERROR".toList (by decide)
    (by decide) (by decide) (by decide) (by decide) (by decide) d7
  have a9 := carry_R9_T a8
  have b9 := nc_fmt "InvalidParameters".toList "INVALID_PARAMS".toList (by decide)
    (by decide) (by decide) (by decide) (by decide) (by decide) b8
  have d9 := nc_fmt "InvalidParameters".toList "INVALID_PARAMS".toList (by decide)
    (by decide) (by decide) (by decide) (by decide) (by decide) d8
  have a10 := carry_R10_T a9
  have b10 := nc_fmt "NotFound".toList "INVALID_REQUEST".toList (by decide)
    (by decide) (by decide) (by decide) (by decide) (by decide) b9
  have d10 := nc_fmt "NotFound".toList "INVALID_REQUEST".toList (by decide)
    (by decide) (by decide) (by decide) (by decide) (by decide) d9
  have a11 := carry_R11_T a10
  have b11 := nc_fmt "SchemaError".toList "INVALID_PARAMS".toList (by decide)
    (by decide) (by decide) (by decide) (by decide) (by decide) b10
  have d11 := nc_fmt "SchemaError".toList "INVALID_PARAMS".toList (by decide)
    (by decide) (by decide) (by decide) (by decide) (by decide) d10
  rw [convert_fst, subAll_id_of_not_infix b11, subAll_id_of_not_infix d11]
  exact a11

theorem C3_amended_witness :
    (strO <:+: "fn f() -> i32 \x7b ToolError::NotFound(\"x\") \x7d".toList) ∧
    (¬ strW <:+: "fn f() -> i32 \x7b ToolError::NotFound(\"x\") \x7d".toList) ∧
    (¬ strW2 <:+: "fn f() -> i32 \x7b ToolError::NotFound(\"x\") \x7d".toList) ∧
    strT <:+:
      (convert_tool_errors "fn f() -> i32 \x7b ToolError::NotFound(\"x\") \x7d".toList).1 :=
  ⟨by decide, by decide, by decide, C3_amended (by decide) (by decide) (by decide)⟩

/-! ### A strictly decreasing measure for the rewrite rules (C9)

Every pattern consumes the `l` of `ToolError` (and the import-cleanup
rules drop at least that one `l`), while every replacement literal —
`ErrorData`, the error codes, `format!`, `, None)` — is free of `l`
outside the preserved capture groups.  Counting `l` characters therefore
strictly decreases on every match and never increases, which turns the
`changes_made` flag into a faithful change detector. -/

def countL (s : List Char) : Nat := (s.filter (fun c => c = 'l')).length

theorem countL_append (a b : List Char) : countL (a ++ b) = countL a + countL b := by
  simp [countL]

theorem countL_cons (c : Char) (l : List Char) :
    countL (c :: l) = (if c = 'l' then 1 else 0) + countL l := by
  by_cases hc : c = 'l'
  · simp [countL, List.filter_cons, hc]
    omega
  · simp [countL, List.filter_cons, hc]

theorem countL_reverse (l : List Char) : countL l.reverse = countL l := by
  simp [countL]

theorem countL_dropWhile_le (p : Char → Bool) (l : List Char) :
    countL (l.dropWhile p) ≤ countL l := by
  conv_rhs => rw [← List.takeWhile_append_dropWhile p l]
  rw [countL_append]
  omega

theorem countL_pyStrip_le (l : List Char) : countL (pyStrip l) ≤ countL l := by
  unfold pyStrip
  calc countL ((l.dropWhile pyWs).reverse.dropWhile pyWs).reverse
      = countL ((l.dropWhile pyWs).reverse.dropWhile pyWs) := countL_reverse _
    _ ≤ countL (l.dropWhile pyWs).reverse := countL_dropWhile_le _ _
    _ = countL (l.dropWhile pyWs) := countL_reverse _
    _ ≤ countL l := countL_dropWhile_le _ _

theorem countL_joinSep_le (es : List (List Char)) :
    countL (joinSep ", ".toList es) ≤ (es.map countL).sum := by
  induction es with
  | nil => simp [joinSep, countL]
  | cons x xs ih =>
    cases xs with
    | nil => simp [joinSep]
    | cons y rest =>
      have hj : joinSep ", ".toList (x :: y :: rest) =
          x ++ ", ".toList ++ joinSep ", ".toList (y :: rest) := rfl
      rw [hj, countL_append, countL_append]
      have hsep : countL (", ".toList) = 0 := rfl
      simp only [List.map_cons, List.sum_cons] at ih ⊢
      omega

theorem sum_filter_le (p : List Char → Bool) (ls : List (List Char)) :
    ((ls.filter p).map countL).sum ≤ (ls.map countL).sum := by
  induction ls with
  | nil => simp
  | cons x xs ih =>
    by_cases hx : p x = true
    · rw [List.filter_cons_of_pos hx]
      simp only [List.map_cons, List.sum_cons]
      omega
    · rw [List.filter_cons_of_neg (by simpa using hx)]
      simp only [List.map_cons, List.sum_cons]
      omega

theorem sum_map_strip_le (ls : List (List Char)) :
    ((ls.map pyStrip).map countL).sum ≤ (ls.map countL).sum := by
  induction ls with
  | nil => simp
  | cons x xs ih =>
    simp only [List.map_cons, List.sum_cons]
    have := countL_pyStrip_le x
    omega

theorem sum_splitOnChar_le (sep : Char) (x : List Char) :
    ((splitOnChar sep x).map countL).sum ≤ countL x := by
  induction x with
  | nil => simp [splitOnChar, countL]
  | cons c cs ih =>
    rw [countL_cons]
    by_cases hc : c = sep
    · have hsplit : splitOnChar sep (c :: cs) = [] :: splitOnChar sep cs := by
        simp [splitOnChar, hc]
      rw [hsplit]
      simp only [List.map_cons, List.sum_cons]
      have h0 : countL ([] : List Char) = 0 := rfl
      omega
    · cases hr : splitOnChar sep cs with
      | nil =>
        simp only [splitOnChar, if_neg hc, hr]
        simp only [List.map_cons, List.map_nil, List.sum_cons, List.sum_nil]
        rw [countL_cons]
        have h0 : countL ([] : List Char) = 0 := rfl
        omega
      | cons piece rest =>
        simp only [splitOnChar, if_neg hc, hr]
        rw [hr] at ih
        simp only [List.map_cons, List.sum_cons] at ih ⊢
        rw [countL_cons]
        omega

theorem countL_useImports_le (g1 g2 : List Char) :
    countL (joinSep ", ".toList (useImports g1 g2)) ≤ countL g1 + countL g2 := by
  unfold useImports
  calc countL (joinSep ", ".toList
        (((splitOnChar ',' (g1 ++ g2)).map pyStrip).filter
          (fun x => !x.isEmpty && !(x == teList))))
      ≤ ((((splitOnChar ',' (g1 ++ g2)).map pyStrip).filter
          (fun x => !x.isEmpty && !(x == teList))).map countL).sum := countL_joinSep_le _
    _ ≤ (((splitOnChar ',' (g1 ++ g2)).map pyStrip).map countL).sum := sum_filter_le _ _
    _ ≤ ((splitOnChar ',' (g1 ++ g2)).map countL).sum := sum_map_strip_le _
    _ ≤ countL (g1 ++ g2) := sum_splitOnChar_le _ _
    _ = countL g1 + countL g2 := countL_append _ _

/-! ### Full inversion of the `use`-statement scanner -/

theorem tryUse_inv {prefixLit s rep : List Char} {k : Nat}
    (h : tryUse prefixLit s = some (rep, k)) :
    ∃ g1 g2 rest,
      s = (prefixLit ++ (g1 ++ teList ++ g2) ++ "\x7d;".toList) ++ rest ∧
      (prefixLit ++ (g1 ++ teList ++ g2) ++ "\x7d;".toList).length = k + 1 ∧
      (rep = [] ∨
        rep = prefixLit ++ joinSep ", ".toList (useImports g1 g2) ++ "\x7d;".toList) := by
  unfold tryUse at h
  split at h
  · exact absurd h (by simp)
  · rename_i r h1
    split at h
    · exact absurd h (by simp)
    · rename_i rest2 h2
      split at h
      · exact absurd h (by simp)
      · rename_i p g1 g2 h3
        have hbody := splitFirstTE_inv h3
        have hr : r = r.takeWhile braceFree ++ ("\x7d;".toList ++ rest2) := by
          conv_lhs => rw [takeWhile_split braceFree r]
          rw [dropLit_eq_some h2]
        have hs_eq : s = (prefixLit ++ (g1 ++ teList ++ g2) ++ "\x7d;".toList) ++ rest2 := by
          rw [dropLit_eq_some h1]
          conv_lhs => rw [hr, hbody]
          simp
        have hlen_eq : ∀ kk, kk = prefixLit.length + (r.takeWhile braceFree).length + 1 →
            (prefixLit ++ (g1 ++ teList ++ g2) ++ "\x7d;".toList).length = kk + 1 := by
          intro kk hkk
          rw [hkk, ← hbody]
          simp
          omega
        split at h
        · simp only [Option.some.injEq, Prod.mk.injEq] at h
          obtain ⟨hrep, hkk⟩ := h
          exact ⟨g1, g2, rest2, hs_eq, hlen_eq k hkk.symm, Or.inl hrep.symm⟩
        · simp only [Option.some.injEq, Prod.mk.injEq] at h
          obtain ⟨hrep, hkk⟩ := h
          exact ⟨g1, g2, rest2, hs_eq, hlen_eq k hkk.symm, Or.inr hrep.symm⟩

/-! ### Each rule match strictly decreases `countL` -/

theorem hdec_result1 :
    ∀ s rep k, tryResult1 s = some (rep, k) →
      ∃ M rest, s = M ++ rest ∧ M.length = k + 1 ∧ countL rep < countL M := by
  intro s rep k h
  obtain ⟨g, w, rest, hseq, hrep, hk, _, _⟩ := tryResult1_inv h
  refine ⟨"Result<".toList ++ g ++ [','] ++ w ++ "ToolError>".toList, rest, ?_, ?_, ?_⟩
  · rw [hseq]
    simp
  · simp
    omega
  · rw [hrep]
    simp only [countL_append]
    have e1 : countL ("Result<".toList) = 1 := rfl
    have e2 : countL (", ErrorData>".toList) = 0 := rfl
    have e3 : countL ([','] : List Char) = 0 := rfl
    have e4 : countL ("ToolError>".toList) = 1 := rfl
    omega

theorem hdec_result2 :
    ∀ s rep k, tryResult2 s = some (rep, k) →
      ∃ M rest, s = M ++ rest ∧ M.length = k + 1 ∧ countL rep < countL M := by
  intro s rep k h
  obtain ⟨rest, hseq, hrep, hk⟩ := tryResult2_inv h
  refine ⟨"-> Result<Vec<Content>, ToolError>".toList, rest, hseq, by simp; omega, ?_⟩
  rw [hrep]
  decide

theorem hdec_result3 :
    ∀ s rep k, tryResult3 s = some (rep, k) →
      ∃ M rest, s = M ++ rest ∧ M.length = k + 1 ∧ countL rep < countL M := by
  intro s rep k h
  obtain ⟨g, rest, hseq, hrep, hk, _⟩ := tryResult3_inv h
  refine ⟨"-> Result<".toList ++ g ++ ", ToolError>".toList, rest, ?_, ?_, ?_⟩
  · rw [hseq]
    simp
  · simp
    omega
  · rw [hrep]
    simp only [countL_append]
    have e1 : countL ("-> Result<".toList) = 1 := rfl
    have e2 : countL (", ErrorData>".toList) = 0 := rfl
    have e3 : countL (", ToolError>".toList) = 1 := rfl
    omega

theorem hdec_ctor {name code : List Char} (hcode : countL code = 0) :
    ∀ s rep k, tryCtor name code s = some (rep, k) →
      ∃ M rest, s = M ++ rest ∧ M.length = k + 1 ∧ countL rep < countL M := by
  intro s rep k h
  obtain ⟨arg, rest, hseq, hrep, hk, _, _⟩ := tryCtor_inv h
  refine ⟨(teList ++ "::".toList ++ name ++ ['(']) ++ arg ++ [')'], rest, ?_, ?_, ?_⟩
  · rw [hseq]
    simp
  · rw [hk]
    simp [List.length_append]
    omega
  · rw [hrep]
    simp only [countL_append]
    have e1 : countL teList = 1 := rfl
    have e2 : countL ("::".toList) = 0 := rfl
    have e3 : countL (['('] : List Char) = 0 := rfl
    have e4 : countL ([')'] : List Char) = 0 := rfl
    have e5 : countL ("ErrorData::new(ErrorCode::".toList) = 0 := rfl
    have e6 : countL (", ".toList) = 0 := rfl
    have e7 : countL (", None)".toList) = 0 := rfl
    omega

theorem hdec_fmt {name code : List Char} (hcode : countL code = 0) :
    ∀ s rep k, tryFmt name code s = some (rep, k) →
      ∃ M rest, s = M ++ rest ∧ M.length = k + 1 ∧ countL rep < countL M := by
  intro s rep k h
  obtain ⟨arg, rest, hseq, hrep, hk, _, _⟩ := tryFmt_inv h
  refine ⟨(teList ++ "::".toList ++ name ++ "(format!(".toList) ++ arg ++ [')', ')'],
    rest, ?_, ?_, ?_⟩
  · rw [hseq]
    simp
  · rw [hk]
    simp [List.length_append]
    omega
  · rw [hrep]
    simp only [countL_append]
    have e1 : countL teList = 1 := rfl
    have e2 : countL ("::".toList) = 0 := rfl
    have e3 : countL ("(format!(".toList) = 0 := rfl
    have e4 : countL ([')', ')'] : List Char) = 0 := rfl
    have e5 : countL ("ErrorData::new(ErrorCode::".toList) = 0 := rfl
    have e6 : countL (", format!(".toList) = 0 := rfl
    have e7 : countL ("), None)".toList) = 0 := rfl
    omega

theorem hdec_use (prefixLit : List Char) :
    ∀ s rep k, tryUse prefixLit s = some (rep, k) →
      ∃ M rest, s = M ++ rest ∧ M.length = k + 1 ∧ countL rep < countL M := by
  intro s rep k h
  obtain ⟨g1, g2, rest, hs, hk, hrep⟩ := tryUse_inv h
  refine ⟨prefixLit ++ (g1 ++ teList ++ g2) ++ "\x7d;".toList, rest, hs, hk, ?_⟩
  have hM : countL (prefixLit ++ (g1 ++ teList ++ g2) ++ "\x7d;".toList) =
      countL prefixLit + (countL g1 + 1 + countL g2) := by
    simp only [countL_append]
    have e1 : countL teList = 1 := rfl
    have e2 : countL ("\x7d;".toList) = 0 := rfl
    omega
  rcases hrep with rfl | hrep2
  · rw [hM]
    have h0 : countL ([] : List Char) = 0 := rfl
    omega
  · rw [hrep2, hM, countL_append, countL_append]
    have hjoin := countL_useImports_le g1 g2
    have e2 : countL ("\x7d;".toList) = 0 := rfl
    omega

/-! ### The measure through a whole pass and through the pipeline -/

theorem subAll_measure {rule : List Char → Option (List Char × Nat)}
    (hd : ∀ s rep k, rule s = some (rep, k) →
      ∃ M rest, s = M ++ rest ∧ M.length = k + 1 ∧ countL rep < countL M) :
    ∀ (n : Nat) (s : List Char), s.length ≤ n →
      countL (subAll rule s) ≤ countL s ∧
      (subAll rule s ≠ s → countL (subAll rule s) < countL s) := by
  intro n
  induction n with
  | zero =>
    intro s hlen
    cases s with
    | nil => rw [subAll_nil]; exact ⟨le_refl _, fun h => absurd rfl h⟩
    | cons c cs => simp at hlen
  | succ m ih =>
    intro s hlen
    cases s with
    | nil => rw [subAll_nil]; exact ⟨le_refl _, fun h => absurd rfl h⟩
    | cons c cs =>
      cases htry : rule (c :: cs) with
      | some rk =>
        obtain ⟨rep, k⟩ := rk
        rw [subAll_cons, htry]
        simp only []
        obtain ⟨M, rest, hsM, hMlen, hlt⟩ := hd _ _ _ htry
        have h1 : (c :: cs).drop (k + 1) = rest := by
          rw [hsM, ← hMlen, List.drop_left]
        have h2 : (c :: cs).drop (k + 1) = cs.drop k := rfl
        have hr : cs.drop k = rest := h2.symm.trans h1
        have hcount_s : countL (c :: cs) = countL M + countL rest := by
          rw [hsM, countL_append]
        have hihd := ih (cs.drop k) (by
          simp only [List.length_cons] at hlen
          simp only [List.length_drop]
          omega)
        have hA : countL (subAll rule (cs.drop k)) ≤ countL rest := by
          rw [← hr]
          exact hihd.1
        rw [countL_append, hcount_s]
        exact ⟨by omega, fun _ => by omega⟩
      | none =>
        rw [subAll_cons, htry]
        simp only []
        have hihd := ih cs (by simpa using hlen)
        rw [countL_cons, countL_cons]
        refine ⟨by have := hihd.1; omega, ?_⟩
        intro hne
        have hne2 : subAll rule cs ≠ cs := by
          intro he
          exact hne (by rw [he])
        have := hihd.2 hne2
        omega

theorem foldl_flag_mono (rules : List (List Char → Option (List Char × Nat))) :
    ∀ st, st.2 = true → (rules.foldl applyRule st).2 = true := by
  induction rules with
  | nil => intro st h; simpa using h
  | cons r rs ih =>
    intro st h
    rw [List.foldl_cons]
    by_cases hh : subAll r st.1 = st.1
    · have ha : applyRule st r = st := by simp [applyRule, hh]
      rw [ha]
      exact ih st h
    · have ha : applyRule st r = (subAll r st.1, true) := by simp [applyRule, hh]
      rw [ha]
      exact ih _ rfl

theorem foldl_flag_false (rules : List (List Char → Option (List Char × Nat))) :
    ∀ st, (rules.foldl applyRule st).2 = false → (rules.foldl applyRule st).1 = st.1 := by
  induction rules with
  | nil => intro st _; rfl
  | cons r rs ih =>
    intro st h
    rw [List.foldl_cons] at h ⊢
    by_cases hh : subAll r st.1 = st.1
    · have ha : applyRule st r = st := by simp [applyRule, hh]
      rw [ha] at h ⊢
      exact ih st h
    · have ha : applyRule st r = (subAll r st.1, true) := by simp [applyRule, hh]
      rw [ha] at h
      have hmono := foldl_flag_mono rs (subAll r st.1, true) rfl
      rw [hmono] at h
      exact Bool.noConfusion h

theorem foldl_measure :
    ∀ (rules : List (List Char → Option (List Char × Nat))),
      (∀ r ∈ rules, ∀ s rep k, r s = some (rep, k) →
        ∃ M rest, s = M ++ rest ∧ M.length = k + 1 ∧ countL rep < countL M) →
      ∀ st, countL (rules.foldl applyRule st).1 ≤ countL st.1 ∧
        ((rules.foldl applyRule st).2 = true →
          st.2 = true ∨ countL (rules.foldl applyRule st).1 < countL st.1) := by
  intro rules
  induction rules with
  | nil => intro _ st; exact ⟨le_refl _, fun h => Or.inl h⟩
  | cons r rs ih =>
    intro hdall st
    rw [List.foldl_cons]
    have hdr := hdall r (List.mem_cons_self r rs)
    have hdrs := fun r' hr' => hdall r' (List.mem_cons_of_mem r hr')
    by_cases hh : subAll r st.1 = st.1
    · have ha : applyRule st r = st := by simp [applyRule, hh]
      rw [ha]
      exact ih hdrs st
    · have ha : applyRule st r = (subAll r st.1, true) := by simp [applyRule, hh]
      rw [ha]
      obtain ⟨hle, _⟩ := ih hdrs (subAll r st.1, true)
      have hlt : countL (subAll r st.1) < countL st.1 :=
        (subAll_measure hdr st.1.length st.1 (le_refl _)).2 hh
      exact ⟨le_trans hle (le_of_lt hlt), fun _ => Or.inr (lt_of_le_of_lt hle hlt)⟩

theorem ruleList_hdec : ∀ r ∈ ruleList, ∀ s rep k, r s = some (rep, k) →
    ∃ M rest, s = M ++ rest ∧ M.length = k + 1 ∧ countL rep < countL M := by
  intro r hr
  simp only [ruleList, List.mem_cons, List.not_mem_nil, or_false] at hr
  rcases hr with rfl | rfl | rfl | rfl | rfl | rfl | rfl | rfl | rfl | rfl | rfl | rfl | rfl
  · exact hdec_result1
  · exact hdec_result2
  · exact hdec_result3
  · exact hdec_ctor (by decide)
  · exact hdec_ctor (by decide)
  · exact hdec_ctor (by decide)
  · exact hdec_ctor (by decide)
  · exact hdec_fmt (by decide)
  · exact hdec_fmt (by decide)
  · exact hdec_fmt (by decide)
  · exact hdec_fmt (by decide)
  · exact hdec_use _
  · exact hdec_use _

/-- C9: for every input string `c`, `convert_tool_errors c` returns
`changes_made = true` if and only if the returned content differs from
`c` — the "at least one rule matched and changed something" flag
coincides exactly with "the content changed". -/
theorem C9_flag_iff_changed (c : List Char) :
    (convert_tool_errors c).2 = true ↔ (convert_tool_errors c).1 ≠ c := by
  constructor
  · intro hflag
    have hm := foldl_measure ruleList ruleList_hdec (c, false)
    rcases hm.2 hflag with h | h
    · exact absurd h (by simp)
    · intro he
      rw [show (List.foldl applyRule (c, false) ruleList).1 = (convert_tool_errors c).1
          from rfl, he] at h
      exact lt_irrefl _ h
  · intro hne
    cases hf : (convert_tool_errors c).2 with
    | true => rfl
    | false => exact absurd (foldl_flag_false ruleList (c, false) hf) hne

end Goose
